import Mathlib

/-!
Verification of the route-topology engine of `superroute`
(`src/OSMRouteRelation.ts`), as a shallow embedding.

JavaScript `Map`s (insertion-ordered, last-write-wins on an existing key,
no duplicate keys) are modelled as association lists (`List (key × value)`),
with `jsSet` reproducing `Map.set` (update in place keeps the original
position, a fresh key is appended at the end) and `List.lookup` reproducing
`Map.get`.  Node and edge identifiers are strings, exactly as in the source
(a reversed segment reference is the id string prefixed with "-").
JavaScript numbers are modelled as `Rat`; `Option Rat` models a number that
may be `NaN`/`undefined` where the source can produce one.
Exceptions are modelled with `Except`; a caught exception is an `.error`
value consumed by the catcher.  The `while` loop of `orderedChildIds` is
modelled with explicit fuel (`fuelOf`); every verified run is shown to
finish strictly within the fuel, so the fuel never truncates a verified
computation.
-/

instance {ε α : Type} [DecidableEq ε] [DecidableEq α] : DecidableEq (Except ε α) := fun x y =>
  match x, y with
  | .ok a, .ok b =>
    if h : a = b then isTrue (by rw [h]) else isFalse (by intro hh; cases hh; exact h rfl)
  | .error a, .error b =>
    if h : a = b then isTrue (by rw [h]) else isFalse (by intro hh; cases hh; exact h rfl)
  | .ok _, .error _ => isFalse (by intro hh; cases hh)
  | .error _, .ok _ => isFalse (by intro hh; cases hh)

namespace SuperRoute

abbrev Adj := List (String × String)

abbrev RouteGraph := List (String × Adj)

/-- JS `Map.get`: the value stored at the first (unique) matching key. -/
def jsGet {α : Type} : List (String × α) → String → Option α
  | [], _ => none
  | (k, v) :: rest, x => if k = x then some v else jsGet rest x

/-- JS `Map.set`: overwrite in place if the key exists, else append. -/
def jsSet : Adj → String → String → Adj
  | [], k, v => [(k, v)]
  | (k1, v1) :: rest, k, v =>
    if k1 = k then (k1, v) :: rest else (k1, v1) :: jsSet rest k v

/-- One edge insertion of `_buildRouteGraph`: `routeGraph.get(a).set(b, r)`,
creating `a`'s inner map first when absent. -/
def graphSet : RouteGraph → String → String → String → RouteGraph
  | [], a, b, r => [(a, [(b, r)])]
  | (k, adj) :: rest, a, b, r =>
    if k = a then (k, jsSet adj b r) :: rest else (k, adj) :: graphSet rest a b r

/-- Property bag of a segment's GeoJSON feature (`surface`, `highway`,
`sac_scale`, `@id`), supplied by the external segment collaborator. -/
structure Props where
  surface : Bool
  highway : Option String
  sacScale : Bool
  atId : String
deriving DecidableEq, Repr

/-- An `OSMRelationMember` together with the way-like element data the
core reads from it.  `ends = none` models `element.endNodes` throwing
(or the element being absent), which `_buildRouteGraph` catches.
`coords` and `tlen` are the element's line geometry and its external
`turfLength` (kilometres), both supplied by out-of-scope collaborators. -/
structure Member where
  type : String
  role : String
  hasElement : Bool
  id : String
  ends : Option (String × String)
  props : Props
  coords : List (List Rat)
  tlen : Rat
deriving DecidableEq, Repr

/-- One iteration of the member loop of `_buildRouteGraph`: skip `node`
members, record an error for an unobtainable endpoint pair, otherwise
insert `a→b` with reference `id` and `b→a` with reference `"-" ++ id`. -/
def buildStep : RouteGraph × Nat → Member → RouteGraph × Nat
  | (g, errs), m =>
    if m.type = "node" then (g, errs)
    else
      match m.ends with
      | none => (g, errs + 1)
      | some (a, b) => (graphSet (graphSet g a b m.id) b a ("-" ++ m.id), errs)

/-- `_buildRouteGraph`: fold the members, fail iff any error was recorded. -/
def buildRouteGraph (ms : List Member) : Except Unit RouteGraph :=
  match ms.foldl buildStep ([], 0) with
  | (g, 0) => .ok g
  | _ => .error ()

/-- The `children` getter: way members that carry an element. -/
def children (ms : List Member) : List Member :=
  ms.filter (fun m => m.type == "way" && m.hasElement)

/-- The `routeGraph` getter: build from non-`alternative` children. -/
def routeGraphE (ms : List Member) : Except Unit RouteGraph :=
  buildRouteGraph ((children ms).filter (fun m => m.role != "alternative"))

/-- The inner adjacency map of `v` (`routeGraph.get(v)`, `[]` if absent). -/
def adjOf (g : RouteGraph) (v : String) : Adj :=
  (jsGet g v).getD []

/-- The neighbour keys of `v` (`Array.from(routeGraph.get(v).keys())`). -/
def adjKeys (g : RouteGraph) (v : String) : List String :=
  (adjOf g v).map Prod.fst

/-- `routeGraph.get(a).get(b)`: the signed segment reference of edge a→b. -/
def lookup2 (g : RouteGraph) (a b : String) : Option String :=
  jsGet (adjOf g a) b

/-- The node keys of the graph in iteration order. -/
def keysOf (g : RouteGraph) : List String :=
  g.map Prod.fst

/-- Bin `d` of the `nodeDegrees` getter: node keys whose adjacency size,
clamped by `Math.min(size, 3)`, equals `d`, in graph iteration order. -/
def degBin (g : RouteGraph) (d : Nat) : List String :=
  (g.filter (fun e => Nat.min e.2.length 3 == d)).map Prod.fst

/-- The decision of the `isRoutable` getter on a built graph:
no degree-3+ bin entries, and `bin1.length < 2 || bin1.length == 2`. -/
def isRoutable (g : RouteGraph) : Bool :=
  (degBin g 3).isEmpty && (decide ((degBin g 1).length < 2) || (degBin g 1).length == 2)

/-- The `isRoutable` getter at route level: a graph-construction failure is
caught and converted to `false`. -/
def isRoutableRoute (ms : List Member) : Bool :=
  match routeGraphE ms with
  | .error _ => false
  | .ok g => isRoutable g

/-- The `errNodes` payload of `RouteTopologyError`: every degree-3+ node,
plus every degree-1 node when there are more than two of them. -/
def errNodes (g : RouteGraph) : List String :=
  degBin g 3 ++ (if 2 < (degBin g 1).length then degBin g 1 else [])

inductive TopoErr where
  | composite : TopoErr
  | topology : List String → TopoErr
deriving DecidableEq, Repr

/-- The `endNodes` getter on a built graph.  `Option String` components
model the JS array accesses `bins[i][j]`, which yield `undefined` rather
than failing when out of range. -/
def endNodes (g : RouteGraph) : Except (List String) (Option String × Option String) :=
  if isRoutable g then
    if (degBin g 1).length == 0 then
      .ok ((degBin g 2).get? 0, (degBin g 2).get? 0)
    else
      .ok ((degBin g 1).get? 0, (degBin g 1).get? 1)
  else .error (errNodes g)

/-- `endNodes` at route level: when the graph itself cannot be built the
re-raised failure is the composite `SuperRouteTopologyError` (which carries
no node list), otherwise a `RouteTopologyError` carrying `errNodes`. -/
def endNodesRoute (ms : List Member) : Except TopoErr (Option String × Option String) :=
  match routeGraphE ms with
  | .ok g =>
    match endNodes g with
    | .ok p => .ok p
    | .error l => .error (.topology l)
  | .error _ => .error .composite

/-- `_getNextNode`: first neighbour of `currId` different from `lastId`. -/
def getNextNode (g : RouteGraph) (currId lastId : String) : Option String :=
  ((adjKeys g currId).filter (fun k => k != lastId)).head?

/-- The `while` loop of `orderedChildIds`, with explicit fuel.  Each
iteration pushes the reference of the edge currId→nextId, advances, and
breaks a round trip when the walk returns to `endId`. -/
def walkAux (g : RouteGraph) : Nat → String → String → Option String → String → List String → List String
  | 0, _, _, _, _, acc => acc.reverse
  | fuel + 1, _lastId, currId, nextId, endId, acc =>
    match nextId with
    | none => acc.reverse
    | some nxt =>
      let ref := (lookup2 g currId nxt).getD "undefined"
      let last2 := currId
      let curr2 := nxt
      let next2 := getNextNode g curr2 last2
      if curr2 == endId && !(last2 == "-1") then (ref :: acc).reverse
      else walkAux g fuel last2 curr2 next2 endId (ref :: acc)

/-- Sum of all adjacency sizes (twice the edge count for a graph without
lost parallel edges). -/
def totalAdj (g : RouteGraph) : Nat :=
  (g.map (fun e => e.2.length)).sum

def edgeCount (g : RouteGraph) : Nat :=
  totalAdj g / 2

def fuelOf (g : RouteGraph) : Nat :=
  totalAdj g + 2

/-- The single-entry special case of `orderedChildIds`: the first value of
the first entry's inner map (a JS crash — modelled as an error — if the
inner map is empty). -/
def singleEntryRef : RouteGraph → Except Unit (List String)
  | (_, (_, ref) :: _) :: _ => .ok [ref]
  | _ => .error ()

/-- The round-trip start of `orderedChildIds`: begin at the first entry and
its first neighbour, remembering the start node as the cycle terminator. -/
def roundTripStart (g : RouteGraph) : Except Unit (List String) :=
  match g with
  | (n0, (nb, _) :: _) :: _ => .ok (walkAux g (fuelOf g) "-1" n0 (some nb) n0 [])
  | _ => .error ()

/-- The walk started from the degree-1 scan result: from the found node
when one exists, otherwise as a round trip. -/
def walkFrom (g : RouteGraph) : Option (String × Adj) → Except Unit (List String)
  | some e => .ok (walkAux g (fuelOf g) "-1" e.1 (getNextNode g e.1 "-1") "-1" [])
  | none => roundTripStart g

/-- The `orderedChildIds` getter on a built graph: guard on routability,
single-entry special case, then the start search (first degree-1 node,
else round-trip start at the first entry) followed by the walk. -/
def orderedChildIdsG (g : RouteGraph) : Except Unit (List String) :=
  if isRoutable g then
    if g.length == 1 then singleEntryRef g
    else walkFrom g (g.find? (fun e => e.2.length == 1))
  else .error ()

/-- `orderedChildIds` at route level. -/
def orderedChildIdsRoute (ms : List Member) : Except Unit (List String) :=
  match routeGraphE ms with
  | .ok g => if isRoutableRoute ms then orderedChildIdsG g else .error ()
  | .error _ => .error ()

/-- Neighbour multiset of position `i` on a simple path `ns`: the previous
element (when any) followed by the next element (when any). -/
def pathNbrs (ns : List String) (i : Nat) : List String :=
  (if i = 0 then [] else [ns.getD (i - 1) "-1"]) ++
    (if i + 1 < ns.length then [ns.getD (i + 1) "-1"] else [])

/-- The graph is exactly the simple path `ns[0] - ns[1] - ... - ns[k]`:
distinct nodes (none equal to the walker's `"-1"` sentinel), and every
node's neighbour keys are, up to order, its path neighbours. -/
def IsPathGraph (g : RouteGraph) (ns : List String) : Prop :=
  ns.Nodup ∧ 2 ≤ ns.length ∧ "-1" ∉ ns ∧ (keysOf g).Perm ns ∧
    ∀ i, i < ns.length → (adjKeys g (ns.getD i "-1")).Perm (pathNbrs ns i)

/-- Neighbour pair of position `i` on the simple cycle `ns`: the cyclic
predecessor and successor. -/
def cycNbrs (ns : List String) (i : Nat) : List String :=
  [ns.getD ((i + ns.length - 1) % ns.length) "-1", ns.getD ((i + 1) % ns.length) "-1"]

/-- The graph is exactly the simple cycle through `ns` (length at least 3). -/
def IsCycleGraph (g : RouteGraph) (ns : List String) : Prop :=
  ns.Nodup ∧ 3 ≤ ns.length ∧ "-1" ∉ ns ∧ (keysOf g).Perm ns ∧
    ∀ i, i < ns.length → (adjKeys g (ns.getD i "-1")).Perm (cycNbrs ns i)

/-- The signed references read off along a node chain `ms`. -/
def chainRefs (g : RouteGraph) (ms : List String) : List (Option String) :=
  (ms.zip ms.tail).map (fun p => lookup2 g p.1 p.2)

/-- The correctness contract of `orderedChildIds` on a routable graph, with
`ms` the node chain visited by the walk: the output is exactly the signed
reference of each chained edge (continuous endpoint chaining), its length is
the edge count, every edge of the graph is traversed exactly once, and the
chain either closes (round trip, no degree-1 node) or runs between the two
degree-1 nodes (one-way). -/
def WalkSpec (g : RouteGraph) (out : List String) (ms : List String) : Prop :=
  out.map some = chainRefs g ms ∧
  out.length = edgeCount g ∧
  (∀ a b, b ∈ adjKeys g a →
    (ms.zip ms.tail).countP
      (fun p => (p.1 == a && p.2 == b) || (p.1 == b && p.2 == a)) = 1) ∧
  ((degBin g 1 = [] ∧ ms.head? = ms.getLast?) ∨
    (∃ x y, x ≠ y ∧ ms.head? = some x ∧ ms.getLast? = some y ∧
      (degBin g 1).Perm [x, y]))

/-- A segment's GeoJSON line feature: coordinates, properties, and its
external `turfLength` (kilometres). -/
structure Feat where
  coords : List (List Rat)
  props : Props
  tlen : Rat
deriving DecidableEq, Repr

def feature (m : Member) : Feat :=
  ⟨m.coords, m.props, m.tlen⟩

/-- Modelled from the spec: `reverseLineFeature` lives in `./utils`, which is
not under `src/`; per the spec a reversed traversal swaps the endpoint order,
i.e. reverses the coordinate sequence. -/
def reverseLineFeature (f : Feat) : Feat :=
  ⟨f.coords.reverse, f.props, f.tlen⟩

/-- Modelled from the spec: `_isReversed` lives in `./utils`, which is not
under `src/`; per the spec a signed segment reference marks reverse traversal
with a "-" prefix on the identifier. -/
def isReversedRef (s : String) : Bool :=
  s.data.head? == some (Char.ofNat 45)

/-- Modelled from the spec: `_absoluteId` lives in `./utils`; it strips the
"-" reversal marker from a signed segment reference. -/
def absoluteId (s : String) : String :=
  if isReversedRef s then s.drop 1 else s

/-- The `childrenMap` of `orderedFeatureCollection`: a JS map from element id
to child, where a later child wins on a duplicate id. -/
def childById (ms : List Member) (cid : String) : Option Member :=
  (children ms).reverse.find? (fun c => c.id == cid)

/-- The body of `orderedFeatureCollection`: each ordered signed reference is
resolved to its child's feature, reversed when the reference is marked.  A
reference that resolves to no child models the JS `undefined.element` crash. -/
def orderedFeats (ms : List Member) : Except Unit (List Feat) :=
  match orderedChildIdsRoute ms with
  | .error e => .error e
  | .ok ids =>
    ids.mapM (fun cid =>
      if isReversedRef cid then
        match childById ms (absoluteId cid) with
        | some c => Except.ok (reverseLineFeature (feature c))
        | none => Except.error ()
      else
        match childById ms cid with
        | some c => Except.ok (feature c)
        | none => Except.error ())

/-- The coordinates of the `lineStringFeature` getter: the first ordered
feature's coordinates followed by every later feature's coordinates with the
leading join point dropped (`slice(1)`).  An empty feature list models the
JS `shift()`-returns-`undefined` crash. -/
def lineCoordsE (ms : List Member) : Except Unit (List (List Rat)) :=
  match orderedFeats ms with
  | .error e => .error e
  | .ok [] => .error ()
  | .ok (f :: fs) => .ok (f.coords ++ (fs.map (fun f2 => f2.coords.drop 1)).flatten)

/-- The statistics helper `round`: `Math.round(number * 100) / 100`, with
JS `Math.round` rounding half toward positive infinity. -/
def jsRound (x : Rat) : Rat :=
  ((x * 100 + 1 / 2).floor : Rat) / 100

/-- Rounding a JS number that may be `NaN`/`undefined` (`none`): the result
is again `NaN` (`none`). -/
def jsRoundOpt (x : Option Rat) : Option Rat :=
  x.map jsRound

/-- Accumulator state of the per-segment statistics loop. -/
structure StatsAcc where
  numSegments : Nat
  numNodes : Nat
  surfacePct : Rat
  surfaceWays : List String
  numSacRelevant : Nat
  numSac : Nat
  sacScaleWays : List String
  length : Rat
deriving DecidableEq, Repr

/-- One iteration of the `statistics` segment loop. -/
def statStep (s : StatsAcc) (f : Feat) : StatsAcc :=
  let n := s.numSegments + 1
  let hwRelevant :=
    match f.props.highway with
    | some h => h == "path" || h == "track" || h == "footway"
    | none => false
  { numSegments := n
    numNodes := s.numNodes + f.coords.length
    surfacePct := if f.props.surface then s.surfacePct + 1 / (n : Rat) else s.surfacePct
    surfaceWays := if f.props.surface then s.surfaceWays else s.surfaceWays ++ [f.props.atId]
    numSacRelevant := if hwRelevant then s.numSacRelevant + 1 else s.numSacRelevant
    numSac := if hwRelevant && f.props.sacScale then s.numSac + 1 else s.numSac
    sacScaleWays :=
      if hwRelevant && !f.props.sacScale then s.sacScaleWays ++ [f.props.atId]
      else s.sacScaleWays
    length := s.length + f.tlen * 1000 }

/-- The final `RouteStatistics` record.  `sacScalePct`, `ascent` and
`descent` are `Option Rat` with `none` standing for the JS `NaN` the code
stores there (`0/0`, respectively `round(undefined)`). -/
structure Stats where
  numSegments : Nat
  numNodes : Nat
  length : Rat
  surfacePct : Rat
  surfaceWays : List String
  sacScalePct : Option Rat
  sacScaleWays : List String
  ascent : Option Rat
  descent : Option Rat
deriving DecidableEq, Repr

/-- Elevation contribution of one consecutive coordinate pair: a positive
delta counts toward ascent, a negative one (as magnitude) toward descent; a
missing third component makes both comparisons false, contributing nothing. -/
def delta3 (prev cur : List Rat) : Rat × Rat :=
  match prev.get? 2, cur.get? 2 with
  | some a, some b =>
    if a < b then (b - a, 0) else if b < a then (0, a - b) else (0, 0)
  | _, _ => (0, 0)

/-- The ascent/descent loop over consecutive coordinate pairs. -/
def ascDesc (cs : List (List Rat)) : Rat × Rat :=
  (cs.zip cs.tail).foldl
    (fun p q => (p.1 + (delta3 q.1 q.2).1, p.2 + (delta3 q.1 q.2).2)) (0, 0)

/-- The `statistics` getter: fold the (unordered, non-alternative) segment
features, compute the sac-scale ratio (`NaN` on an empty denominator), run
the ascent/descent block only when the route is routable and the assembled
line's first coordinate has three components, then apply the final rounding
(which turns a never-assigned ascent/descent into `NaN`). -/
def statsRoute (ms : List Member) : Except Unit Stats :=
  let feats := ((children ms).filter (fun m => m.role != "alternative")).map feature
  let acc := feats.foldl statStep ⟨0, 0, 0, [], 0, 0, [], 0⟩
  let sacPct : Option Rat :=
    if acc.numSacRelevant = 0 then none
    else some ((acc.numSac : Rat) / (acc.numSacRelevant : Rat))
  let adE : Except Unit (Option Rat × Option Rat) :=
    if isRoutableRoute ms then
      match lineCoordsE ms with
      | .error e => .error e
      | .ok [] => .error ()
      | .ok (c0 :: rest) =>
        if c0.length = 3 then
          .ok (some (ascDesc (c0 :: rest)).1, some (ascDesc (c0 :: rest)).2)
        else .ok (none, none)
    else .ok (none, none)
  match adE with
  | .error e => .error e
  | .ok (asc, desc) =>
    .ok { numSegments := acc.numSegments
          numNodes := acc.numNodes
          length := jsRound acc.length
          surfacePct := jsRound acc.surfacePct * 100
          surfaceWays := acc.surfaceWays
          sacScalePct := (jsRoundOpt sacPct).map (fun x => x * 100)
          sacScaleWays := acc.sacScaleWays
          ascent := jsRoundOpt asc
          descent := jsRoundOpt desc }

/-- A plain `main`-role way segment with endpoints `a`, `b`. -/
def mkSeg (i a b : String) : Member :=
  ⟨"way", "main", true, i, some (a, b), ⟨false, none, false, "way/" ++ i⟩, [], 0⟩

/-- A way segment with an explicit role. -/
def mkSegR (i a b role2 : String) : Member :=
  ⟨"way", role2, true, i, some (a, b), ⟨false, none, false, "way/" ++ i⟩, [], 0⟩

/-- A way segment with a surface flag and explicit coordinates. -/
def mkSegC (i a b : String) (surf : Bool) (cs : List (List Rat)) : Member :=
  ⟨"way", "main", true, i, some (a, b), ⟨surf, none, false, "way/" ++ i⟩, cs, 0⟩

/-- A way member whose endpoint fetch fails (caught by the graph builder). -/
def badSeg : Member :=
  ⟨"way", "main", true, "9", none, ⟨false, none, false, "way/9"⟩, [], 0⟩

/-- The graph of the simple path A - B - C. -/
def gPath3 : RouteGraph :=
  [("A", [("B", "1")]), ("B", [("A", "-1"), ("C", "2")]), ("C", [("B", "-2")])]

def msPath3 : List Member :=
  [mkSeg "1" "A" "B", mkSeg "2" "B" "C"]

/-- The graph of the degree-3 star at B (edges to A, C, D). -/
def gStar : RouteGraph :=
  [("A", [("B", "1")]), ("B", [("A", "-1"), ("C", "2"), ("D", "3")]),
    ("C", [("B", "-2")]), ("D", [("B", "-3")])]

def msStar : List Member :=
  [mkSeg "1" "A" "B", mkSeg "2" "B" "C", mkSeg "3" "B" "D"]

/-- Two disjoint triangles A-B-C-A and D-E-F-D: every node has degree 2,
so the graph passes the `isRoutable` check, but the walk only ever covers
the component it starts in. -/
def msTwoTri : List Member :=
  [mkSeg "1" "A" "B", mkSeg "2" "B" "C", mkSeg "3" "C" "A",
    mkSeg "4" "D" "E", mkSeg "5" "E" "F", mkSeg "6" "F" "D"]

/-! Helper lemmas about the JS-map model. -/

theorem lookup_jsSet_self (adj : Adj) (b r : String) :
    jsGet (jsSet adj b r) b = some r := by
  induction adj with
  | nil => simp [jsSet, jsGet]
  | cons e rest ih =>
    obtain ⟨k1, v1⟩ := e
    by_cases h : k1 = b
    · subst h
      simp [jsSet, jsGet]
    · simp [jsSet, h, jsGet, ih]

theorem lookup_jsSet_other (adj : Adj) (b r y : String) (h : y ≠ b) :
    jsGet (jsSet adj b r) y = jsGet adj y := by
  induction adj with
  | nil => simp [jsSet, jsGet, Ne.symm h]
  | cons e rest ih =>
    obtain ⟨k1, v1⟩ := e
    by_cases hk : k1 = b
    · subst hk
      simp [jsSet, jsGet, Ne.symm h]
    · by_cases hy : k1 = y
      · subst hy
        simp [jsSet, hk, jsGet]
      · simp [jsSet, hk, jsGet, hy, ih]

theorem mem_keys_jsSet (adj : Adj) (b r x : String) :
    x ∈ (jsSet adj b r).map Prod.fst ↔ x ∈ adj.map Prod.fst ∨ x = b := by
  induction adj with
  | nil => simp [jsSet]
  | cons e rest ih =>
    obtain ⟨k1, v1⟩ := e
    by_cases hk : k1 = b
    · subst hk
      simp [jsSet]
      tauto
    · simp [jsSet, hk, ih]
      tauto

theorem adjOf_graphSet_self (g : RouteGraph) (a b r : String) :
    adjOf (graphSet g a b r) a = jsSet (adjOf g a) b r := by
  induction g with
  | nil => simp [graphSet, adjOf, jsGet, jsSet]
  | cons e rest ih =>
    obtain ⟨k, adj⟩ := e
    by_cases hk : k = a
    · subst hk
      simp [graphSet, adjOf, jsGet]
    · simp [graphSet, hk, adjOf, jsGet] at ih ⊢
      exact ih

theorem adjOf_graphSet_other (g : RouteGraph) (a b r y : String) (h : y ≠ a) :
    adjOf (graphSet g a b r) y = adjOf g y := by
  induction g with
  | nil => simp [graphSet, adjOf, jsGet, Ne.symm h]
  | cons e rest ih =>
    obtain ⟨k, adj⟩ := e
    by_cases hk : k = a
    · subst hk
      simp [graphSet, adjOf, jsGet, Ne.symm h]
    · by_cases hy : k = y
      · subst hy
        simp [graphSet, hk, adjOf, jsGet]
      · simp [graphSet, hk, adjOf, jsGet, hy] at ih ⊢
        exact ih

theorem lookup2_graphSet_self (g : RouteGraph) (a b r : String) :
    lookup2 (graphSet g a b r) a b = some r := by
  rw [lookup2, adjOf_graphSet_self, lookup_jsSet_self]

theorem lookup2_graphSet_frame (g : RouteGraph) (a b r x y : String)
    (h : ¬(x = a ∧ y = b)) :
    lookup2 (graphSet g a b r) x y = lookup2 g x y := by
  by_cases hx : x = a
  · subst hx
    have hy : y ≠ b := fun hy => h ⟨rfl, hy⟩
    rw [lookup2, adjOf_graphSet_self, lookup_jsSet_other _ _ _ _ hy, lookup2]
  · rw [lookup2, adjOf_graphSet_other _ _ _ _ _ hx, lookup2]

theorem mem_adjKeys_graphSet (g : RouteGraph) (a b r x y : String) :
    x ∈ adjKeys (graphSet g a b r) y ↔ (x ∈ adjKeys g y ∨ (y = a ∧ x = b)) := by
  by_cases hy : y = a
  · subst hy
    rw [adjKeys, adjOf_graphSet_self, adjKeys]
    constructor
    · intro h
      have := (mem_keys_jsSet _ b r x).mp h
      tauto
    · intro h
      apply (mem_keys_jsSet _ b r x).mpr
      tauto
  · rw [adjKeys, adjOf_graphSet_other _ _ _ _ _ hy, adjKeys]
    simp [hy]

/-- Symmetry of a route graph: `x` neighbours `y` iff `y` neighbours `x`. -/
def Sym (g : RouteGraph) : Prop :=
  ∀ x y, x ∈ adjKeys g y ↔ y ∈ adjKeys g x

theorem sym_addEdges (g : RouteGraph) (a b r r2 : String) (hs : Sym g) :
    Sym (graphSet (graphSet g a b r) b a r2) := by
  intro x y
  rw [mem_adjKeys_graphSet, mem_adjKeys_graphSet, mem_adjKeys_graphSet,
    mem_adjKeys_graphSet]
  have := hs x y
  tauto

theorem sym_foldl (ms : List Member) :
    ∀ (g : RouteGraph) (errs : Nat), Sym g → Sym (ms.foldl buildStep (g, errs)).1 := by
  induction ms with
  | nil => intro g errs hs; exact hs
  | cons m rest ih =>
    intro g errs hs
    rw [List.foldl_cons]
    by_cases ht : m.type = "node"
    · rw [show buildStep (g, errs) m = (g, errs) by simp [buildStep, ht]]
      exact ih g errs hs
    · cases he : m.ends with
      | none =>
        rw [show buildStep (g, errs) m = (g, errs + 1) by simp [buildStep, ht, he]]
        exact ih g (errs + 1) hs
      | some p =>
        obtain ⟨a, b⟩ := p
        rw [show buildStep (g, errs) m =
            (graphSet (graphSet g a b m.id) b a ("-" ++ m.id), errs) by
          simp [buildStep, ht, he]]
        exact ih _ errs (sym_addEdges g a b m.id ("-" ++ m.id) hs)

/-- A member that never writes the ordered pairs (a,b) or (b,a). -/
def Avoids (m : Member) (a b : String) : Prop :=
  m.type = "node" ∨ ∀ c d, m.ends = some (c, d) → ¬((c = a ∧ d = b) ∨ (c = b ∧ d = a))

theorem lookup2_foldl_frame (ms : List Member) :
    ∀ (g : RouteGraph) (errs : Nat) (a b : String), (∀ m ∈ ms, Avoids m a b) →
      lookup2 (ms.foldl buildStep (g, errs)).1 a b = lookup2 g a b ∧
      lookup2 (ms.foldl buildStep (g, errs)).1 b a = lookup2 g b a := by
  induction ms with
  | nil => intro g errs a b _; exact ⟨rfl, rfl⟩
  | cons m rest ih =>
    intro g errs a b hav
    rw [List.foldl_cons]
    by_cases ht : m.type = "node"
    · rw [show buildStep (g, errs) m = (g, errs) by simp [buildStep, ht]]
      exact ih g errs a b (fun m2 hm2 => hav m2 (List.mem_cons_of_mem m hm2))
    · cases he : m.ends with
      | none =>
        rw [show buildStep (g, errs) m = (g, errs + 1) by simp [buildStep, ht, he]]
        exact ih g (errs + 1) a b (fun m2 hm2 => hav m2 (List.mem_cons_of_mem m hm2))
      | some p =>
        obtain ⟨c, d⟩ := p
        have hm : Avoids m a b := hav m (List.mem_cons_self m rest)
        have hcd : ¬((c = a ∧ d = b) ∨ (c = b ∧ d = a)) := by
          rcases hm with hm | hm
          · exact absurd hm ht
          · exact hm c d he
        rw [show buildStep (g, errs) m =
            (graphSet (graphSet g c d m.id) d c ("-" ++ m.id), errs) by
          simp [buildStep, ht, he]]
        have h2 := ih (graphSet (graphSet g c d m.id) d c ("-" ++ m.id)) errs a b
          (fun m2 hm2 => hav m2 (List.mem_cons_of_mem m hm2))
        rw [h2.1, h2.2]
        constructor
        · rw [lookup2_graphSet_frame _ _ _ _ _ _ (by tauto),
            lookup2_graphSet_frame _ _ _ _ _ _ (by tauto)]
        · rw [lookup2_graphSet_frame _ _ _ _ _ _ (by tauto),
            lookup2_graphSet_frame _ _ _ _ _ _ (by tauto)]

theorem mem_adjKeys_foldl_mono (ms : List Member) :
    ∀ (g : RouteGraph) (errs : Nat) (x y : String), x ∈ adjKeys g y →
      x ∈ adjKeys (ms.foldl buildStep (g, errs)).1 y := by
  induction ms with
  | nil => intro g errs x y h; exact h
  | cons m rest ih =>
    intro g errs x y h
    rw [List.foldl_cons]
    by_cases ht : m.type = "node"
    · rw [show buildStep (g, errs) m = (g, errs) by simp [buildStep, ht]]
      exact ih g errs x y h
    · cases he : m.ends with
      | none =>
        rw [show buildStep (g, errs) m = (g, errs + 1) by simp [buildStep, ht, he]]
        exact ih g (errs + 1) x y h
      | some p =>
        obtain ⟨c, d⟩ := p
        rw [show buildStep (g, errs) m =
            (graphSet (graphSet g c d m.id) d c ("-" ++ m.id), errs) by
          simp [buildStep, ht, he]]
        refine ih _ errs x y ?_
        rw [mem_adjKeys_graphSet, mem_adjKeys_graphSet]
        tauto

theorem buildRouteGraph_ok_fst (ms : List Member) (g : RouteGraph)
    (h : buildRouteGraph ms = .ok g) : (ms.foldl buildStep ([], 0)).1 = g := by
  unfold buildRouteGraph at h
  rcases hp : ms.foldl buildStep ([], 0) with ⟨g2, e2⟩
  rw [hp] at h
  cases e2 with
  | zero =>
    simp at h
    exact h
  | succ n => simp at h

theorem adjKeys_cons_self (k : String) (adj : Adj) (t : RouteGraph) :
    adjKeys ((k, adj) :: t) k = adj.map Prod.fst := by
  simp [adjKeys, adjOf, jsGet]

theorem adjKeys_cons_ne (k : String) (adj : Adj) (t : RouteGraph) (v : String)
    (h : k ≠ v) : adjKeys ((k, adj) :: t) v = adjKeys t v := by
  simp [adjKeys, adjOf, jsGet, h]

theorem min3_eq_iff (l d : Nat) (hd : d < 3) : Nat.min l 3 = d ↔ l = d := by
  unfold Nat.min
  rw [inf_eq_min, min_def]
  split <;> omega

theorem min3_eq_three (l : Nat) : Nat.min l 3 = 3 ↔ 3 ≤ l := by
  unfold Nat.min
  rw [inf_eq_min, min_def]
  split <;> omega

/-- With unique outer keys, `nodeDegrees`' bin `d` is the key list filtered
by the degree predicate. -/
theorem degBin_eq_filter (g : RouteGraph) (hnd : (keysOf g).Nodup) (d : Nat) :
    degBin g d = (keysOf g).filter (fun v => Nat.min (adjKeys g v).length 3 == d) := by
  induction g with
  | nil => rfl
  | cons e t ih =>
    obtain ⟨k, adj⟩ := e
    simp only [keysOf, List.map_cons, List.nodup_cons] at hnd
    obtain ⟨hk, hndt⟩ := hnd
    have htail : List.filter (fun v => Nat.min (adjKeys ((k, adj) :: t) v).length 3 == d)
        (List.map Prod.fst t) = degBin t d := by
      have hcg : ∀ v ∈ List.map Prod.fst t,
          (Nat.min (adjKeys ((k, adj) :: t) v).length 3 == d)
            = (Nat.min (adjKeys t v).length 3 == d) := by
        intro v hv
        rw [adjKeys_cons_ne]
        intro he
        exact hk (he ▸ hv)
      rw [List.filter_congr hcg, ih hndt]
      rfl
    show (List.filter _ ((k, adj) :: t)).map Prod.fst
        = List.filter _ (List.map Prod.fst ((k, adj) :: t))
    rw [List.map_cons, List.filter_cons, List.filter_cons, adjKeys_cons_self,
      List.length_map]
    cases hp : (Nat.min adj.length 3 == d) with
    | true =>
      simp [hp, htail]
      rfl
    | false =>
      simp [hp, htail]
      rfl

/-- C1 (amended): with the arity bound removed from 2 to "fewer than 2 or
exactly 2", the routability predicate is: no node of degree 3 or more, and
at most two nodes of degree 1 (0 for a round trip, 2 for a one-way route,
1 only in the degenerate self-loop case). -/
theorem c1_isRoutable_iff_degrees (g : RouteGraph) (hnd : (keysOf g).Nodup)
    (_hadj : ∀ e ∈ g, (e.2.map Prod.fst).Nodup) :
    isRoutable g = true ↔
      ((∀ v ∈ keysOf g, (adjKeys g v).length ≤ 2) ∧
        ((keysOf g).filter (fun v => (adjKeys g v).length == 1)).length ≤ 2) := by
  rw [isRoutable, Bool.and_eq_true, Bool.or_eq_true]
  rw [degBin_eq_filter g hnd 3, degBin_eq_filter g hnd 1]
  have hcg : List.filter (fun v => Nat.min (adjKeys g v).length 3 == 1) (keysOf g)
      = List.filter (fun v => (adjKeys g v).length == 1) (keysOf g) := by
    apply List.filter_congr
    intro v hv
    by_cases h : (adjKeys g v).length = 1
    · simp [h]
    · have h2 : Nat.min (adjKeys g v).length 3 ≠ 1 := fun hc =>
        h ((min3_eq_iff _ 1 (by omega)).mp hc)
      simp [h, h2]
  rw [hcg]
  simp only [decide_eq_true_eq, beq_iff_eq, List.isEmpty_iff,
    List.filter_eq_nil_iff]
  constructor
  · rintro ⟨h3, h1⟩
    refine ⟨?_, by omega⟩
    intro v hv
    by_contra hlt
    exact h3 v hv ((min3_eq_three _).mpr (by omega))
  · rintro ⟨hd, hc⟩
    refine ⟨?_, by omega⟩
    intro v hv hc2
    have h1 := (min3_eq_three _).mp hc2
    have h2 := hd v hv
    omega

/-- C1 (counterexample): the claim says a graph with exactly one degree-1
node is never routable; the self-loop graph built from a single segment with
equal endpoints has exactly one degree-1 node, no degree-3+ node, and
`isRoutable` is `true` on it. -/
theorem c1_counterexample :
    routeGraphE [mkSeg "1" "A" "A"] = .ok [("A", [("A", "-1")])] ∧
    (degBin [("A", [("A", "-1")])] 1).length = 1 ∧
    (degBin [("A", [("A", "-1")])] 3).length = 0 ∧
    isRoutable [("A", [("A", "-1")])] = true := by decide

/-- C1 (witness): the amended equivalence applied to the concrete path
graph A - B - C, whose hypotheses hold by computation. -/
theorem c1_witness : isRoutable gPath3 = true :=
  (c1_isRoutable_iff_degrees gPath3 (by decide) (by decide)).mpr (by decide)

/-- C3 (amended): the route-level `isRoutable` is total — a failure inside
the guarded computation (graph construction) is caught and converted to
`false` — but a successfully built `empty` graph yields `true` (vacuous
round trip), not `false` as the claim states. -/
theorem c3_isRoutable_total (ms : List Member) :
    (routeGraphE ms = .error () → isRoutableRoute ms = false) ∧
    (routeGraphE ms = .ok [] → isRoutableRoute ms = true) := by
  constructor
  · intro h
    simp [isRoutableRoute, h]
  · intro h
    simp [isRoutableRoute, h]
    decide

/-- C3 (counterexample): a route with no members builds the empty graph and
is reported routable, where the claim requires `false`. -/
theorem c3_counterexample :
    routeGraphE ([] : List Member) = .ok [] ∧ isRoutableRoute [] = true := by decide

/-- C3 (witness): both amended conjuncts at concrete inputs — a member whose
endpoint fetch fails is caught into a `false` verdict, and the empty route
is `true`. -/
theorem c3_witness :
    isRoutableRoute [badSeg] = false ∧ isRoutableRoute [] = true :=
  ⟨(c3_isRoutable_total [badSeg]).1 (by decide), (c3_isRoutable_total []).2 (by decide)⟩

/-- C4: on a route whose graph was built, `endNodes` returns the two
degree-1 nodes (bin1[0], bin1[1]) for a routable one-way route, the first
degree-2 node twice for a routable round trip, and raises a topology error
whose node list contains every degree-3+ node when the route is not
routable. -/
theorem c4_endNodes (ms : List Member) (g : RouteGraph)
    (hg : routeGraphE ms = .ok g) :
    (∀ x y l, isRoutable g = true → degBin g 1 = x :: y :: l →
      endNodesRoute ms = .ok (some x, some y)) ∧
    (∀ z l, isRoutable g = true → degBin g 1 = [] → degBin g 2 = z :: l →
      endNodesRoute ms = .ok (some z, some z)) ∧
    (isRoutable g = false →
      endNodesRoute ms = .error (.topology (errNodes g)) ∧
      ∀ v ∈ degBin g 3, v ∈ errNodes g) := by
  refine ⟨?_, ?_, ?_⟩
  · intro x y l hr hb
    simp [endNodesRoute, hg, endNodes, hr, hb]
  · intro z l hr hb1 hb2
    simp [endNodesRoute, hg, endNodes, hr, hb1, hb2]
  · intro hr
    constructor
    · simp [endNodesRoute, hg, endNodes, hr]
    · intro v hv
      exact List.mem_append_left _ hv

/-- C4 (witness): the degree-3 example — node B with edges to A, C and D —
is not routable and the raised topology error lists B. -/
theorem c4_witness :
    endNodesRoute msStar = .error (.topology (errNodes gStar)) ∧
    "B" ∈ degBin gStar 3 ∧ "B" ∈ errNodes gStar :=
  ⟨((c4_endNodes msStar gStar (by decide)).2.2 (by decide)).1, by decide,
    ((c4_endNodes msStar gStar (by decide)).2.2 (by decide)).2 "B" (by decide)⟩

/-- C5 (amended): every built graph is symmetric (`x` neighbours `y` iff `y`
neighbours `x`); and a segment's forward reference `id` at A→B and reverse
reference `-id` at B→A survive into the final graph provided its endpoints
are distinct and no later member writes the same unordered endpoint pair
(the adjacency map is last-write-wins). -/
theorem c5_graph_invariant (ms : List Member) (g : RouteGraph)
    (h : buildRouteGraph ms = .ok g) :
    (∀ x y, x ∈ adjKeys g y ↔ y ∈ adjKeys g x) ∧
    (∀ l1 m l2 a b, ms = l1 ++ m :: l2 → m.type ≠ "node" → m.ends = some (a, b) →
      a ≠ b → (∀ m2 ∈ l2, Avoids m2 a b) →
      lookup2 g a b = some m.id ∧ lookup2 g b a = some ("-" ++ m.id)) := by
  have hg := buildRouteGraph_ok_fst ms g h
  constructor
  · rw [← hg]
    exact sym_foldl ms [] 0 (fun x y => by simp [adjKeys, adjOf, jsGet])
  · intro l1 m l2 a b hms ht he hab hav
    subst hms
    rw [← hg, List.foldl_append, List.foldl_cons]
    rcases hs1 : List.foldl buildStep ([], 0) l1 with ⟨g1, e1⟩
    rw [show buildStep (g1, e1) m
        = (graphSet (graphSet g1 a b m.id) b a ("-" ++ m.id), e1) by
      simp [buildStep, ht, he]]
    have hfr := lookup2_foldl_frame l2
      (graphSet (graphSet g1 a b m.id) b a ("-" ++ m.id)) e1 a b hav
    rw [hfr.1, hfr.2]
    constructor
    · rw [lookup2_graphSet_frame _ _ _ _ _ _ (fun hc => hab hc.1),
        lookup2_graphSet_self]
    · rw [lookup2_graphSet_self]

/-- C5 (witness): the invariant applied to a single segment (A, B) with
reference 1: the final graph holds `1` at A→B and `-1` at B→A, and key
symmetry holds. -/
theorem c5_witness :
    lookup2 [("A", [("B", "1")]), ("B", [("A", "-1")])] "A" "B" = some "1" ∧
    lookup2 [("A", [("B", "1")]), ("B", [("A", "-1")])] "B" "A" = some ("-" ++ "1") ∧
    ("B" ∈ adjKeys [("A", [("B", "1")]), ("B", [("A", "-1")])] "A" ↔
      "A" ∈ adjKeys [("A", [("B", "1")]), ("B", [("A", "-1")])] "B") := by
  have H := c5_graph_invariant [mkSeg "1" "A" "B"]
    [("A", [("B", "1")]), ("B", [("A", "-1")])] (by decide)
  have H2 := H.2 [] (mkSeg "1" "A" "B") [] "A" "B" rfl (by decide) (by decide)
    (by decide) (by intro m2 hm2; simp at hm2)
  exact ⟨H2.1, H2.2, H.1 "B" "A"⟩

/-- C5 (counterexample): the unconditional containment claim fails — a
self-loop's reverse insertion overwrites its forward reference, and a later
segment with the same endpoint pair overwrites an earlier one's entries. -/
theorem c5_counterexample :
    (buildRouteGraph [mkSeg "1" "A" "A"] = .ok [("A", [("A", "-1")])] ∧
      ¬lookup2 [("A", [("A", "-1")])] "A" "A" = some "1") ∧
    (buildRouteGraph [mkSeg "1" "A" "B", mkSeg "2" "A" "B"]
        = .ok [("A", [("B", "2")]), ("B", [("A", "-2")])] ∧
      ¬lookup2 [("A", [("B", "2")]), ("B", [("A", "-2")])] "A" "B" = some "1") := by
  decide

/-- C6 (amended): the route graph is built from exactly the way children
whose role is not `alternative` — not only those whose role is `main`; any
such member with obtainable endpoints contributes its edge. -/
theorem c6_role_filter (ms : List Member) :
    routeGraphE ms = buildRouteGraph (ms.filter (fun m =>
      m.role != "alternative" && (m.type == "way" && m.hasElement))) ∧
    (∀ g, routeGraphE ms = .ok g → ∀ m ∈ ms, m.type = "way" → m.hasElement = true →
      m.role ≠ "alternative" → ∀ a b, m.ends = some (a, b) → b ∈ adjKeys g a) := by
  constructor
  · rw [routeGraphE, children, List.filter_filter]
  · intro g hg m hm htype hel hrole a b hends
    have hmem : m ∈ (children ms).filter (fun m2 => m2.role != "alternative") := by
      rw [children, List.filter_filter]
      refine List.mem_filter.mpr ⟨hm, ?_⟩
      simp [htype, hel, hrole]
    obtain ⟨s, t2, hst⟩ := List.append_of_mem hmem
    rw [routeGraphE] at hg
    have hfst := buildRouteGraph_ok_fst _ _ hg
    rw [hst, List.foldl_append, List.foldl_cons] at hfst
    rcases hs1 : List.foldl buildStep ([], 0) s with ⟨g1, e1⟩
    rw [hs1] at hfst
    rw [show buildStep (g1, e1) m
        = (graphSet (graphSet g1 a b m.id) b a ("-" ++ m.id), e1) by
      simp [buildStep, htype, hends]] at hfst
    rw [← hfst]
    apply mem_adjKeys_foldl_mono
    rw [mem_adjKeys_graphSet, mem_adjKeys_graphSet]
    tauto

/-- C6 (counterexample): a way child whose role is the empty string — hence
not `main` — still contributes an edge to the route graph, where the claim
says only `main`-role segments do. -/
theorem c6_counterexample :
    routeGraphE [mkSegR "1" "A" "B" ""]
      = .ok [("A", [("B", "1")]), ("B", [("A", "-1")])] ∧
    (mkSegR "1" "A" "B" "").role ≠ "main" ∧
    "B" ∈ adjKeys [("A", [("B", "1")]), ("B", [("A", "-1")])] "A" := by decide

/-- C6 (witness): the positive half of the amended claim at a concrete
`main`-role segment. -/
theorem c6_witness :
    "B" ∈ adjKeys [("A", [("B", "1")]), ("B", [("A", "-1")])] "A" :=
  (c6_role_filter [mkSeg "1" "A" "B"]).2
    [("A", [("B", "1")]), ("B", [("A", "-1")])] (by decide) (mkSeg "1" "A" "B")
    (by decide) (by decide) (by decide) (by decide) "A" "B" (by decide)

/-- C10: a route whose sole main child is a self-loop at A builds the
one-entry graph A→A carrying the reverse-marked reference (the reverse
insertion overwrote the forward one), is routable, and `orderedChildIds`
returns exactly that reverse-marked reference. -/
theorem c10_self_loop (i a : String) (p : Props) (cs : List (List Rat)) (t : Rat) :
    routeGraphE [⟨"way", "main", true, i, some (a, a), p, cs, t⟩]
      = .ok [(a, [(a, "-" ++ i)])] ∧
    isRoutableRoute [⟨"way", "main", true, i, some (a, a), p, cs, t⟩] = true ∧
    orderedChildIdsRoute [⟨"way", "main", true, i, some (a, a), p, cs, t⟩]
      = .ok ["-" ++ i] := by
  have h1 : routeGraphE [(⟨"way", "main", true, i, some (a, a), p, cs, t⟩ : Member)]
      = .ok [(a, [(a, "-" ++ i)])] := by
    simp [routeGraphE, children, buildRouteGraph, buildStep, graphSet, jsSet]
  have h2 : isRoutable [(a, [(a, "-" ++ i)])] = true := by
    simp [isRoutable, degBin]
  refine ⟨h1, ?_, ?_⟩
  · simp [isRoutableRoute, h1, h2]
  · simp [orderedChildIdsRoute, h1, isRoutableRoute, h2, orderedChildIdsG, singleEntryRef]

/-! Generic machinery for the walk of `orderedChildIds`. -/

theorem walkAux_none_any (g : RouteGraph) (fuel : Nat) (l c e : String)
    (acc : List String) : walkAux g fuel l c none e acc = acc.reverse := by
  cases fuel <;> rfl

theorem walkAux_step_true (g : RouteGraph) (fuel : Nat) (l c nxt e : String)
    (acc : List String) (hcond : (nxt == e && !(c == "-1")) = true) :
    walkAux g (fuel + 1) l c (some nxt) e acc
      = (((lookup2 g c nxt).getD "undefined") :: acc).reverse := by
  show (if (nxt == e && !(c == "-1")) = true then _ else _) = _
  rw [hcond]
  simp

theorem walkAux_step_false (g : RouteGraph) (fuel : Nat) (l c nxt e : String)
    (acc : List String) (hcond : (nxt == e && !(c == "-1")) = false) :
    walkAux g (fuel + 1) l c (some nxt) e acc
      = walkAux g fuel c nxt (getNextNode g nxt c) e
          (((lookup2 g c nxt).getD "undefined") :: acc) := by
  show (if (nxt == e && !(c == "-1")) = true then _ else _) = _
  rw [hcond]
  simp

theorem filter_bne_of_perm_pair {l : List String} {x y : String}
    (hp : l.Perm [x, y]) (hxy : x ≠ y) :
    l.filter (fun k => k != x) = [y] := by
  have h2 := hp.filter (fun k => k != x)
  have hyx : (y != x) = true := bne_iff_ne.mpr (Ne.symm hxy)
  rw [show List.filter (fun k => k != x) [x, y] = [y] by
    simp [List.filter, hyx]] at h2
  exact List.perm_singleton.mp h2

theorem filter_bne_of_perm_single {l : List String} {x : String}
    (hp : l.Perm [x]) : l.filter (fun k => k != x) = [] := by
  have h2 := hp.filter (fun k => k != x)
  rw [show List.filter (fun k => k != x) [x] = [] by simp [List.filter]] at h2
  exact List.perm_nil.mp h2

theorem getNext_pair (g : RouteGraph) (c x y : String)
    (hp : (adjKeys g c).Perm [x, y]) (hxy : x ≠ y) :
    getNextNode g c x = some y := by
  rw [getNextNode, filter_bne_of_perm_pair hp hxy]
  rfl

theorem getNext_single (g : RouteGraph) (c x : String)
    (hp : (adjKeys g c).Perm [x]) : getNextNode g c x = none := by
  rw [getNextNode, filter_bne_of_perm_single hp]
  rfl

theorem getNext_single_start (g : RouteGraph) (c x s : String)
    (hp : (adjKeys g c).Perm [x]) (hx : x ≠ s) :
    getNextNode g c s = some x := by
  rw [getNextNode]
  have h2 := hp.filter (fun k => k != s)
  have hxs : (x != s) = true := bne_iff_ne.mpr hx
  rw [show List.filter (fun k => k != s) [x] = [x] by simp [List.filter, hxs]] at h2
  rw [List.perm_singleton.mp h2]
  rfl

/-- The walk from position `t` of a path `f 0, ..., f M` runs to the end of
the path and stops on the missing neighbour. -/
theorem walk_path_aux (g : RouteGraph) (f : Nat → String) (M : Nat)
    (hf : ∀ t, 1 ≤ t → t < M → getNextNode g (f t) (f (t - 1)) = some (f (t + 1)))
    (hend : getNextNode g (f M) (f (M - 1)) = none)
    (hne : ∀ t, t ≤ M → f t ≠ "-1") :
    ∀ fuel t acc, 1 ≤ t → t ≤ M → M - t < fuel →
      walkAux g fuel (f (t - 1)) (f t)
          (if t < M then some (f (t + 1)) else none) "-1" acc
        = acc.reverse ++ (List.range' t (M - t)).map
            (fun u => (lookup2 g (f u) (f (u + 1))).getD "undefined") := by
  intro fuel
  induction fuel with
  | zero =>
    intro t acc ht1 htM hfuel
    omega
  | succ fu ih =>
    intro t acc ht1 htM hfuel
    by_cases htM2 : t < M
    · rw [if_pos htM2]
      have hcond : ((f (t + 1) == "-1") && !(f t == "-1")) = false := by
        have h1 : f (t + 1) ≠ "-1" := hne (t + 1) (by omega)
        simp [h1]
      rw [walkAux_step_false _ _ _ _ _ _ _ hcond]
      by_cases ht2 : t + 1 < M
      · have hnext : getNextNode g (f (t + 1)) (f t) = some (f (t + 2)) := by
          have h3 := hf (t + 1) (by omega) ht2
          simpa using h3
        rw [hnext]
        have ihres := ih (t + 1)
          (((lookup2 g (f t) (f (t + 1))).getD "undefined") :: acc)
          (by omega) (by omega) (by omega)
        rw [if_pos ht2] at ihres
        have hnext2 : some (f (t + 1 + 1)) = some (f (t + 2)) := by
          norm_num
        rw [← hnext2, show t + 1 - 1 = t from by omega] at ihres
        rw [ihres, List.reverse_cons, List.append_assoc]
        congr 1
        rw [show M - t = (M - (t + 1)) + 1 from by omega, List.range'_succ,
          List.map_cons]
        rfl
      · have htM1 : t + 1 = M := by omega
        have hnext : getNextNode g (f (t + 1)) (f t) = none := by
          rw [htM1, show t = M - 1 from by omega]
          exact hend
        rw [hnext, walkAux_none_any, List.reverse_cons]
        rw [show M - t = 1 from by omega]
        rw [List.range'_succ]
        simp
    · have ht3 : t = M := by omega
      rw [if_neg htM2, walkAux_none_any, show M - t = 0 from by omega]
      simp

/-- Starting the walk at the degree-1 end `f 0` of a path yields the full
reference sequence. -/
theorem walk_path (g : RouteGraph) (f : Nat → String) (M : Nat) (hM : 1 ≤ M)
    (hf : ∀ t, 1 ≤ t → t < M → getNextNode g (f t) (f (t - 1)) = some (f (t + 1)))
    (hend : getNextNode g (f M) (f (M - 1)) = none)
    (hne : ∀ t, t ≤ M → f t ≠ "-1") :
    ∀ fuel, M < fuel →
      walkAux g fuel "-1" (f 0) (some (f 1)) "-1" []
        = (List.range M).map
            (fun u => (lookup2 g (f u) (f (u + 1))).getD "undefined") := by
  intro fuel hfuel
  obtain ⟨fu, rfl⟩ : ∃ k, fuel = k + 1 := ⟨fuel - 1, by omega⟩
  have hcond : ((f 1 == "-1") && !(f 0 == "-1")) = false := by
    have h1 : f 1 ≠ "-1" := hne 1 (by omega)
    simp [h1]
  rw [walkAux_step_false _ _ _ _ _ _ _ hcond]
  have hnext : getNextNode g (f 1) (f 0)
      = if 1 < M then some (f 2) else none := by
    by_cases h1M : 1 < M
    · rw [if_pos h1M]
      have h3 := hf 1 (by omega) h1M
      simpa using h3
    · rw [if_neg h1M]
      have h2 : M = 1 := by omega
      rw [h2] at hend
      simpa using hend
  rw [hnext]
  have hres := walk_path_aux g f M hf hend hne fu 1
    [((lookup2 g (f 0) (f 1)).getD "undefined")] (by omega) (by omega) (by omega)
  rw [show (1 : Nat) - 1 = 0 from rfl] at hres
  rw [hres, List.range_eq_range']
  rw [show M = (M - 1) + 1 from by omega, List.range'_succ, List.map_cons]
  rfl

/-- The walk around a cycle `f 0, ..., f M = f 0` from position `t` runs
once around and breaks on returning to the start. -/
theorem walk_cycle_aux (g : RouteGraph) (f : Nat → String) (M : Nat)
    (hf : ∀ t, 1 ≤ t → t < M → getNextNode g (f t) (f (t - 1)) = some (f (t + 1)))
    (hne : ∀ t, f t ≠ "-1")
    (hinj : ∀ t, 1 ≤ t → t < M → f t ≠ f 0)
    (hMf : f M = f 0) :
    ∀ fuel t acc, 1 ≤ t → t ≤ M - 1 → M - t < fuel →
      walkAux g fuel (f (t - 1)) (f t) (some (f (t + 1))) (f 0) acc
        = acc.reverse ++ (List.range' t (M - t)).map
            (fun u => (lookup2 g (f u) (f (u + 1))).getD "undefined") := by
  intro fuel
  induction fuel with
  | zero =>
    intro t acc ht1 htM hfuel
    omega
  | succ fu ih =>
    intro t acc ht1 htM hfuel
    by_cases hlast : t + 1 = M
    · have hcond : ((f (t + 1) == f 0) && !(f t == "-1")) = true := by
        rw [hlast, hMf]
        simp [hne t]
      rw [walkAux_step_true _ _ _ _ _ _ _ hcond, List.reverse_cons]
      rw [show M - t = 1 from by omega, List.range'_succ]
      simp
    · have hcond : ((f (t + 1) == f 0) && !(f t == "-1")) = false := by
        have h1 := hinj (t + 1) (by omega) (by omega)
        simp [h1]
      rw [walkAux_step_false _ _ _ _ _ _ _ hcond]
      have hnext : getNextNode g (f (t + 1)) (f t) = some (f (t + 2)) := by
        have h3 := hf (t + 1) (by omega) (by omega)
        simpa using h3
      rw [hnext]
      have ihres := ih (t + 1)
        (((lookup2 g (f t) (f (t + 1))).getD "undefined") :: acc)
        (by omega) (by omega) (by omega)
      have hnext2 : some (f (t + 1 + 1)) = some (f (t + 2)) := by
        norm_num
      rw [← hnext2, show t + 1 - 1 = t from by omega] at ihres
      rw [ihres, List.reverse_cons, List.append_assoc]
      congr 1
      rw [show M - t = (M - (t + 1)) + 1 from by omega, List.range'_succ,
        List.map_cons]
      rfl

/-- Starting the walk at `f 0` of a cycle yields one full round of
references. -/
theorem walk_cycle (g : RouteGraph) (f : Nat → String) (M : Nat) (hM : 3 ≤ M)
    (hf : ∀ t, 1 ≤ t → t < M → getNextNode g (f t) (f (t - 1)) = some (f (t + 1)))
    (hne : ∀ t, f t ≠ "-1")
    (hinj : ∀ t, 1 ≤ t → t < M → f t ≠ f 0)
    (hMf : f M = f 0) :
    ∀ fuel, M < fuel →
      walkAux g fuel "-1" (f 0) (some (f 1)) (f 0) []
        = (List.range M).map
            (fun u => (lookup2 g (f u) (f (u + 1))).getD "undefined") := by
  intro fuel hfuel
  obtain ⟨fu, rfl⟩ : ∃ k, fuel = k + 1 := ⟨fuel - 1, by omega⟩
  have hcond : ((f 1 == f 0) && !(f 0 == "-1")) = false := by
    have h1 := hinj 1 (by omega) (by omega)
    simp [h1]
  rw [walkAux_step_false _ _ _ _ _ _ _ hcond]
  have hnext : getNextNode g (f 1) (f 0) = some (f 2) := by
    have h3 := hf 1 (by omega) (by omega)
    simpa using h3
  rw [hnext]
  have hres := walk_cycle_aux g f M hf hne hinj hMf fu 1
    [((lookup2 g (f 0) (f 1)).getD "undefined")] (by omega) (by omega) (by omega)
  rw [show (1 : Nat) - 1 = 0 from rfl] at hres
  rw [hres, List.range_eq_range']
  rw [show M = (M - 1) + 1 from by omega, List.range'_succ, List.map_cons]
  rfl

/-! Utilities: association-list entries, index arithmetic, counting. -/

theorem adjOf_entry (g : RouteGraph) (hnd : (keysOf g).Nodup) (e : String × Adj)
    (he : e ∈ g) : adjOf g e.1 = e.2 := by
  induction g with
  | nil => cases he
  | cons f t ih =>
    obtain ⟨k, adj⟩ := f
    simp only [keysOf, List.map_cons, List.nodup_cons] at hnd
    rcases List.mem_cons.mp he with h | h
    · subst h
      simp [adjOf, jsGet]
    · have hne : k ≠ e.1 := by
        intro hk
        exact hnd.1 (hk ▸ List.mem_map_of_mem Prod.fst h)
      rw [show adjOf ((k, adj) :: t) e.1 = adjOf t e.1 by simp [adjOf, jsGet, hne]]
      exact ih hnd.2 h

theorem jsGet_eq_none_of_not_mem {α : Type} (l : List (String × α)) (x : String)
    (h : x ∉ l.map Prod.fst) : jsGet l x = none := by
  induction l with
  | nil => rfl
  | cons e t ih =>
    obtain ⟨k, v⟩ := e
    simp only [List.map_cons, List.mem_cons] at h
    push_neg at h
    simp [jsGet, Ne.symm h.1, ih h.2]

theorem mem_keys_of_adjKeys_ne_nil (g : RouteGraph) (a : String)
    (h : adjKeys g a ≠ []) : a ∈ keysOf g := by
  by_contra hmem
  apply h
  rw [adjKeys, adjOf, jsGet_eq_none_of_not_mem g a hmem]
  rfl

theorem jsGet_isSome_of_key_mem {α : Type} (l : List (String × α)) (x : String)
    (h : x ∈ l.map Prod.fst) : ∃ v, jsGet l x = some v := by
  induction l with
  | nil => simp at h
  | cons e t ih =>
    obtain ⟨k, v⟩ := e
    by_cases hk : k = x
    · exact ⟨v, by simp [jsGet, hk]⟩
    · simp only [List.map_cons, List.mem_cons] at h
      rcases h with h | h
      · exact absurd h.symm hk
      · obtain ⟨w, hw⟩ := ih h
        exact ⟨w, by simp [jsGet, hk, hw]⟩

theorem lookup2_isSome_of_mem (g : RouteGraph) (a b : String)
    (h : b ∈ adjKeys g a) : ∃ r, lookup2 g a b = some r :=
  jsGet_isSome_of_key_mem (adjOf g a) b h

theorem nodup_getD_inj {l : List String} (h : l.Nodup) {i j : Nat}
    (hi : i < l.length) (hj : j < l.length)
    (he : l.getD i "-1" = l.getD j "-1") : i = j := by
  rw [List.getD_eq_getElem l _ hi, List.getD_eq_getElem l _ hj] at he
  exact h.getElem_inj_iff.mp he

theorem getD_mem {l : List String} {i : Nat} (hi : i < l.length) :
    l.getD i "-1" ∈ l := by
  rw [List.getD_eq_getElem l _ hi]
  exact List.getElem_mem hi

theorem zip_tail_range_map {α : Type} (f : Nat → α) (n : Nat) :
    ((List.range (n + 1)).map f).zip (((List.range (n + 1)).map f).tail)
      = (List.range n).map (fun t => (f t, f (t + 1))) := by
  apply List.ext_getElem
  · simp
  · intro i h1 h2
    simp [List.getElem_zip, List.getElem_tail]

theorem range_map_head {α : Type} (f : Nat → α) (n : Nat) (hn : 1 ≤ n) :
    ((List.range n).map f).head? = some (f 0) := by
  obtain ⟨m, rfl⟩ : ∃ m, n = m + 1 := ⟨n - 1, by omega⟩
  rw [List.range_succ_eq_map]
  simp

theorem range_map_getLast {α : Type} (f : Nat → α) (n : Nat) (hn : 1 ≤ n) :
    ((List.range n).map f).getLast? = some (f (n - 1)) := by
  obtain ⟨m, rfl⟩ : ∃ m, n = m + 1 := ⟨n - 1, by omega⟩
  rw [List.range_succ, List.map_append]
  simp

theorem countP_eq_one_unique {α : Type} {l : List α} (hnd : l.Nodup)
    {q : α → Bool} (t0 : α) (ht0 : t0 ∈ l)
    (hq : ∀ x ∈ l, q x = true ↔ x = t0) : l.countP q = 1 := by
  induction l with
  | nil => cases ht0
  | cons a t ih =>
    rw [List.nodup_cons] at hnd
    rw [List.countP_cons]
    by_cases ha : a = t0
    · subst ha
      rw [if_pos ((hq a (List.mem_cons_self a t)).mpr rfl)]
      have hz : t.countP q = 0 := by
        rw [List.countP_eq_zero]
        intro x hx hqx
        exact hnd.1 (((hq x (List.mem_cons_of_mem a hx)).mp hqx) ▸ hx)
      omega
    · rcases List.mem_cons.mp ht0 with h | h
      · exact absurd h.symm ha
      · have hqa : ¬(q a = true) := fun hh =>
          ha ((hq a (List.mem_cons_self a t)).mp hh)
        rw [if_neg hqa, ih hnd.2 h
          (fun x hx => hq x (List.mem_cons_of_mem a hx))]

theorem filter_eq_single {l : List String} (hnd : l.Nodup) {b : String}
    {q : String → Bool} (hb : b ∈ l) (hq : ∀ v ∈ l, q v = true ↔ v = b) :
    l.filter q = [b] := by
  induction l with
  | nil => cases hb
  | cons v t ih =>
    rw [List.nodup_cons] at hnd
    by_cases hv : v = b
    · subst hv
      rw [List.filter_cons, if_pos ((hq v (List.mem_cons_self v t)).mpr rfl)]
      have hz : t.filter q = [] := by
        apply List.filter_eq_nil_iff.mpr
        intro w hw hqw
        exact hnd.1 (((hq w (List.mem_cons_of_mem v hw)).mp hqw) ▸ hw)
      rw [hz]
    · have hb2 : b ∈ t := by
        rcases List.mem_cons.mp hb with h | h
        · exact absurd h.symm hv
        · exact h
      have hqv : ¬(q v = true) := fun hh =>
        hv ((hq v (List.mem_cons_self v t)).mp hh)
      rw [List.filter_cons, if_neg hqv]
      exact ih hnd.2 hb2 (fun w hw => hq w (List.mem_cons_of_mem v hw))

theorem filter_perm_pair {l : List String} (hnd : l.Nodup) {a b : String}
    {q : String → Bool} (ha : a ∈ l) (hb : b ∈ l) (hab : a ≠ b)
    (hq : ∀ v ∈ l, q v = true ↔ (v = a ∨ v = b)) :
    (l.filter q).Perm [a, b] := by
  induction l with
  | nil => cases ha
  | cons v t ih =>
    rw [List.nodup_cons] at hnd
    by_cases hva : v = a
    · subst hva
      rw [List.filter_cons, if_pos ((hq v (List.mem_cons_self v t)).mpr (Or.inl rfl))]
      have hb2 : b ∈ t := by
        rcases List.mem_cons.mp hb with h | h
        · exact absurd h.symm hab
        · exact h
      have hsingle : t.filter q = [b] := by
        apply filter_eq_single hnd.2 hb2
        intro w hw
        rw [hq w (List.mem_cons_of_mem v hw)]
        constructor
        · rintro (h | h)
          · exact absurd (h ▸ hw) hnd.1
          · exact h
        · exact fun h => Or.inr h
      rw [hsingle]
    · by_cases hvb : v = b
      · subst hvb
        rw [List.filter_cons, if_pos ((hq v (List.mem_cons_self v t)).mpr (Or.inr rfl))]
        have ha2 : a ∈ t := by
          rcases List.mem_cons.mp ha with h | h
          · exact absurd h.symm hva
          · exact h
        have hsingle : t.filter q = [a] := by
          apply filter_eq_single hnd.2 ha2
          intro w hw
          rw [hq w (List.mem_cons_of_mem v hw)]
          constructor
          · rintro (h | h)
            · exact h
            · exact absurd (h ▸ hw) hnd.1
          · exact fun h => Or.inl h
        rw [hsingle]
        exact List.Perm.swap a v []
      · have ha2 : a ∈ t := by
          rcases List.mem_cons.mp ha with h | h
          · exact absurd h.symm hva
          · exact h
        have hb2 : b ∈ t := by
          rcases List.mem_cons.mp hb with h | h
          · exact absurd h.symm hvb
          · exact h
        have hqv : ¬(q v = true) := fun hh => by
          rcases (hq v (List.mem_cons_self v t)).mp hh with h | h
          · exact hva h
          · exact hvb h
        rw [List.filter_cons, if_neg hqv]
        exact ih hnd.2 ha2 hb2 (fun w hw => hq w (List.mem_cons_of_mem v hw))

theorem sum_ones (n : Nat) : ((List.range n).map (fun _ => (1 : Nat))).sum = n := by
  induction n with
  | zero => rfl
  | succ m ih =>
    rw [List.range_succ, List.map_append, List.sum_append, ih]
    simp

theorem sum_ite_single (n j : Nat) (hj : j < n) :
    ((List.range n).map (fun i => if i = j then (0 : Nat) else 1)).sum = n - 1 := by
  induction n with
  | zero => omega
  | succ m ih =>
    rw [List.range_succ, List.map_append, List.sum_append]
    by_cases hjm : j = m
    · subst hjm
      have hcg : ((List.range j).map (fun i => if i = j then (0 : Nat) else 1))
          = ((List.range j).map (fun _ => (1 : Nat))) := by
        apply List.map_congr_left
        intro i hi
        rw [List.mem_range] at hi
        simp [Nat.ne_of_lt hi]
      rw [hcg, sum_ones]
      simp
    · have hj2 : j < m := by omega
      rw [ih hj2]
      simp [Ne.symm hjm]
      omega

theorem sum_if_zero (n : Nat) (hn : 1 ≤ n) :
    ((List.range n).map (fun i => if i = 0 then (0 : Nat) else 1)).sum = n - 1 :=
  sum_ite_single n 0 (by omega)

theorem sum_if_lt (n : Nat) (hn : 1 ≤ n) :
    ((List.range n).map (fun i => if i + 1 < n then (1 : Nat) else 0)).sum = n - 1 := by
  have hcg : ∀ i ∈ List.range n,
      (if i + 1 < n then (1 : Nat) else 0) = (if i = n - 1 then 0 else 1) := by
    intro i hi
    rw [List.mem_range] at hi
    by_cases h : i = n - 1
    · have h2 : ¬(i + 1 < n) := by omega
      rw [if_neg h2, if_pos h]
    · have h2 : i + 1 < n := by omega
      rw [if_pos h2, if_neg h]
  rw [List.map_congr_left hcg, sum_ite_single n (n - 1) (by omega)]

theorem sum_map_add {α : Type} (l : List α) (f g2 : α → Nat) :
    (l.map (fun x => f x + g2 x)).sum = (l.map f).sum + (l.map g2).sum := by
  induction l with
  | nil => rfl
  | cons a t ih =>
    simp only [List.map_cons, List.sum_cons, ih]
    omega

theorem totalAdj_eq_keys_sum (g : RouteGraph) (hnd : (keysOf g).Nodup) :
    totalAdj g = ((keysOf g).map (fun v => (adjOf g v).length)).sum := by
  induction g with
  | nil => rfl
  | cons e t ih =>
    obtain ⟨k, adj⟩ := e
    simp only [keysOf, List.map_cons, List.nodup_cons] at hnd
    have hself : adjOf ((k, adj) :: t) k = adj := by
      simp [adjOf, jsGet]
    have hcg : ∀ v ∈ List.map Prod.fst t,
        (adjOf ((k, adj) :: t) v).length = (adjOf t v).length := by
      intro v hv
      have hne : k ≠ v := fun hk => hnd.1 (hk ▸ hv)
      rw [show adjOf ((k, adj) :: t) v = adjOf t v by simp [adjOf, jsGet, hne]]
    show adj.length + totalAdj t = _
    rw [ih hnd.2]
    show _ = ((k :: List.map Prod.fst t).map _).sum
    rw [List.map_cons, List.sum_cons, hself, List.map_congr_left hcg]
    rfl

theorem map_eq_range_map {α β : Type} (l : List α) (d : α) (h : α → β) :
    l.map h = (List.range l.length).map (fun i => h (l.getD i d)) := by
  apply List.ext_getElem
  · simp
  · intro i h1 h2
    have hi : i < l.length := by simpa using h1
    simp only [List.getElem_map, List.getElem_range]
    rw [List.getD_eq_getElem l d hi]

/-! The path-graph instantiation of the walk. -/

theorem pathNbrs_length_eq (ns : List String) (i : Nat) :
    (pathNbrs ns i).length
      = (if i = 0 then 0 else 1) + (if i + 1 < ns.length then 1 else 0) := by
  rw [pathNbrs, List.length_append]
  congr 1
  · split <;> rfl
  · split <;> rfl

theorem getD_reverse {l : List String} {i : Nat} (hi : i < l.length) :
    l.reverse.getD i "-1" = l.getD (l.length - 1 - i) "-1" := by
  rw [List.getD_eq_getElem _ _ (by simpa using hi),
    List.getD_eq_getElem _ _ (by omega), List.getElem_reverse]

/-- Degree bins of a path graph: no degree-3+ node, and the degree-1 bin
is exactly the two path ends; hence the graph is routable. -/
theorem path_bins (g : RouteGraph) (ns : List String) (hp : IsPathGraph g ns) :
    degBin g 3 = [] ∧
    (degBin g 1).Perm [ns.getD 0 "-1", ns.getD (ns.length - 1) "-1"] ∧
    isRoutable g = true := by
  obtain ⟨hnodup, hL, hsent, hperm, hadj⟩ := hp
  have hndk : (keysOf g).Nodup := hperm.nodup_iff.mpr hnodup
  have hdeg : ∀ v ∈ keysOf g, ∃ i, i < ns.length ∧ v = ns.getD i "-1" ∧
      (adjKeys g v).length = (pathNbrs ns i).length := by
    intro v hv
    have hv2 : v ∈ ns := hperm.mem_iff.mp hv
    obtain ⟨i, hi, hvi⟩ := List.mem_iff_getElem.mp hv2
    have hvd : v = ns.getD i "-1" := by
      rw [List.getD_eq_getElem ns _ hi, hvi]
    refine ⟨i, hi, hvd, ?_⟩
    rw [hvd]
    exact (hadj i hi).length_eq
  have hb3 : degBin g 3 = [] := by
    rw [degBin_eq_filter g hndk 3]
    apply List.filter_eq_nil_iff.mpr
    intro v hv
    obtain ⟨i, hi, hvi, hlen⟩ := hdeg v hv
    simp only [beq_iff_eq]
    intro hmin
    have h3 := (min3_eq_three _).mp hmin
    rw [hlen, pathNbrs_length_eq] at h3
    split_ifs at h3 <;> omega
  have hb1 : (degBin g 1).Perm [ns.getD 0 "-1", ns.getD (ns.length - 1) "-1"] := by
    rw [degBin_eq_filter g hndk 1]
    refine (hperm.filter _).trans ?_
    apply filter_perm_pair hnodup (getD_mem (by omega)) (getD_mem (by omega))
    · intro he
      have := nodup_getD_inj hnodup (by omega) (by omega) he
      omega
    · intro v hv
      obtain ⟨i, hi, hvi⟩ := List.mem_iff_getElem.mp hv
      have hvd : v = ns.getD i "-1" := by
        rw [List.getD_eq_getElem ns _ hi, hvi]
      have hlen : (adjKeys g v).length = (pathNbrs ns i).length := by
        rw [hvd]
        exact (hadj i hi).length_eq
      simp only [beq_iff_eq]
      constructor
      · intro hq
        have h2 := (min3_eq_iff _ 1 (by omega)).mp hq
        rw [hlen, pathNbrs_length_eq] at h2
        have hior : i = 0 ∨ i = ns.length - 1 := by
          split_ifs at h2 <;> omega
        rcases hior with h | h
        · left
          rw [hvd, h]
        · right
          rw [hvd, h]
      · intro hor
        apply (min3_eq_iff _ 1 (by omega)).mpr
        rw [hlen, pathNbrs_length_eq]
        have hior : i = 0 ∨ i = ns.length - 1 := by
          rcases hor with h | h
          · exact Or.inl (nodup_getD_inj hnodup hi (by omega) (hvd ▸ h))
          · exact Or.inr (nodup_getD_inj hnodup hi (by omega) (hvd ▸ h))
        rcases hior with h | h <;> subst h <;> split_ifs <;> omega
  refine ⟨hb3, hb1, ?_⟩
  have hl1 : (degBin g 1).length = 2 := by
    rw [hb1.length_eq]
    rfl
  simp [isRoutable, hb3, hl1]

/-- The adjacency sizes of a path graph sum to twice the edge count. -/
theorem path_totalAdj (g : RouteGraph) (ns : List String) (hp : IsPathGraph g ns) :
    totalAdj g = 2 * (ns.length - 1) := by
  obtain ⟨hnodup, hL, hsent, hperm, hadj⟩ := hp
  have hndk : (keysOf g).Nodup := hperm.nodup_iff.mpr hnodup
  rw [totalAdj_eq_keys_sum g hndk, (hperm.map _).sum_eq,
    map_eq_range_map ns "-1" _]
  have hcg : ∀ i ∈ List.range ns.length,
      (adjOf g (ns.getD i "-1")).length
        = (if i = 0 then (0 : Nat) else 1) + (if i + 1 < ns.length then 1 else 0) := by
    intro i hi
    rw [List.mem_range] at hi
    have h1 : (adjKeys g (ns.getD i "-1")).length = (pathNbrs ns i).length :=
      (hadj i hi).length_eq
    rw [adjKeys, List.length_map] at h1
    rw [h1, pathNbrs_length_eq]
  rw [List.map_congr_left hcg, sum_map_add, sum_if_zero _ (by omega),
    sum_if_lt _ (by omega)]
  omega

/-- A path graph read backwards is a path graph. -/
theorem isPathGraph_reverse (g : RouteGraph) (ns : List String)
    (hp : IsPathGraph g ns) : IsPathGraph g ns.reverse := by
  obtain ⟨hnodup, hL, hsent, hperm, hadj⟩ := hp
  refine ⟨List.nodup_reverse.mpr hnodup, by simpa using hL, by simpa using hsent,
    hperm.trans (List.reverse_perm ns).symm, ?_⟩
  intro i hi
  rw [List.length_reverse] at hi
  rw [getD_reverse hi]
  refine (hadj (ns.length - 1 - i) (by omega)).trans ?_
  rw [pathNbrs, pathNbrs, List.length_reverse]
  by_cases h0 : i = 0
  · subst h0
    rw [if_neg (show ¬(ns.length - 1 - 0 = 0) from by omega),
      if_neg (show ¬(ns.length - 1 - 0 + 1 < ns.length) from by omega),
      if_pos (show (0 : Nat) = 0 from rfl),
      if_pos (show 0 + 1 < ns.length from by omega),
      getD_reverse (show 0 + 1 < ns.length from by omega),
      show ns.length - 1 - (0 + 1) = ns.length - 1 - 0 - 1 from by omega]
    simp
  · by_cases hL1 : i = ns.length - 1
    · rw [if_pos (show ns.length - 1 - i = 0 from by omega),
        if_pos (show ns.length - 1 - i + 1 < ns.length from by omega),
        if_neg h0, if_neg (show ¬(i + 1 < ns.length) from by omega),
        getD_reverse (show i - 1 < ns.length from by omega),
        show ns.length - 1 - (i - 1) = ns.length - 1 - i + 1 from by omega]
      simp
    · rw [if_neg (show ¬(ns.length - 1 - i = 0) from by omega),
        if_pos (show ns.length - 1 - i + 1 < ns.length from by omega),
        if_neg h0, if_pos (show i + 1 < ns.length from by omega),
        getD_reverse (show i - 1 < ns.length from by omega),
        getD_reverse (show i + 1 < ns.length from by omega),
        show ns.length - 1 - (i - 1) = ns.length - 1 - i + 1 from by omega,
        show ns.length - 1 - (i + 1) = ns.length - 1 - i - 1 from by omega]
      simp only [List.singleton_append, List.nil_append, List.cons_append]
      exact List.Perm.swap _ _ []

/-- The walk on a path graph, started from the found degree-1 entry when it
is the head of `ns`. -/
theorem path_core (g : RouteGraph) (ns : List String) (hp : IsPathGraph g ns)
    (e : String × Adj) (hfind : g.find? (fun x => x.2.length == 1) = some e)
    (hv : e.1 = ns.getD 0 "-1") :
    ∃ out, orderedChildIdsG g = .ok out ∧
      WalkSpec g out ((List.range ns.length).map (fun t => ns.getD t "-1")) := by
  have hbins := path_bins g ns hp
  have htot := path_totalAdj g ns hp
  obtain ⟨hnodup, hL, hsent, hperm, hadj⟩ := hp
  have hndk : (keysOf g).Nodup := hperm.nodup_iff.mpr hnodup
  set L := ns.length with hLdef
  set k := L - 1 with hkdef
  set F : Nat → String := fun t => ns.getD t "-1" with hFdef
  have hk1 : 1 ≤ k := by omega
  have hkL : k + 1 = L := by omega
  have hFmem : ∀ t, t < L → F t ∈ ns := fun t ht => getD_mem ht
  have hFne : ∀ t, t ≤ k → F t ≠ "-1" := by
    intro t ht he
    exact hsent (he ▸ hFmem t (by omega))
  have hFinj : ∀ i j, i < L → j < L → F i = F j → i = j := by
    intro i j hi hj he
    exact nodup_getD_inj hnodup hi hj he
  have hp0 : pathNbrs ns 0 = [F 1] := by
    rw [pathNbrs, if_pos rfl, if_pos (by omega)]
    rfl
  have hpk : pathNbrs ns k = [F (k - 1)] := by
    rw [pathNbrs, if_neg (by omega), if_neg (by omega)]
    rfl
  have hpn : ∀ t, 1 ≤ t → t < k → pathNbrs ns t = [F (t - 1), F (t + 1)] := by
    intro t h1 h2
    rw [pathNbrs, if_neg (by omega), if_pos (by omega)]
    rfl
  have hf : ∀ t, 1 ≤ t → t < k → getNextNode g (F t) (F (t - 1)) = some (F (t + 1)) := by
    intro t h1 h2
    apply getNext_pair g (F t) (F (t - 1)) (F (t + 1))
    · rw [← hpn t h1 h2]
      exact hadj t (by omega)
    · intro he
      have := hFinj _ _ (by omega) (by omega) he
      omega
  have hend : getNextNode g (F k) (F (k - 1)) = none := by
    apply getNext_single
    rw [← hpk]
    exact hadj k (by omega)
  have h0 : getNextNode g (F 0) "-1" = some (F 1) := by
    apply getNext_single_start
    · rw [← hp0]
      exact hadj 0 (by omega)
    · exact hFne 1 (by omega)
  have hglen : g.length = L := by
    have h1 := hperm.length_eq
    simpa [keysOf] using h1
  have hlen1 : ¬((g.length == 1) = true) := by
    simp [hglen]
    omega
  have hfuel : k < fuelOf g := by
    rw [fuelOf, htot]
    omega
  have hwalk := walk_path g F k hk1 hf hend hFne (fuelOf g) hfuel
  have hout : orderedChildIdsG g
      = .ok ((List.range k).map
          (fun u => (lookup2 g (F u) (F (u + 1))).getD "undefined")) := by
    rw [orderedChildIdsG, if_pos hbins.2.2, if_neg hlen1, hfind]
    show Except.ok (walkAux g (fuelOf g) "-1" e.1 (getNextNode g e.1 "-1") "-1" []) = _
    rw [hv, h0, hwalk]
  have hmem2 : ∀ t, t < k → F (t + 1) ∈ adjKeys g (F t) := by
    intro t ht
    apply (hadj t (by omega)).mem_iff.mpr
    by_cases ht0 : t = 0
    · subst ht0
      rw [hp0]
      exact List.mem_singleton.mpr rfl
    · rw [hpn t (by omega) ht]
      simp
  have hms_zip : ((List.range L).map F).zip (((List.range L).map F).tail)
      = (List.range k).map (fun t => (F t, F (t + 1))) := by
    rw [← hkL]
    exact zip_tail_range_map F k
  refine ⟨_, hout, ?_, ?_, ?_, ?_⟩
  · rw [chainRefs, hms_zip, List.map_map, List.map_map]
    apply List.map_congr_left
    intro t ht
    rw [List.mem_range] at ht
    obtain ⟨r, hr⟩ := lookup2_isSome_of_mem g (F t) (F (t + 1)) (hmem2 t ht)
    simp [Function.comp, hr]
  · rw [List.length_map, List.length_range, edgeCount, htot]
    omega
  · intro a b hb
    have hane : adjKeys g a ≠ [] := by
      intro hnil
      rw [hnil] at hb
      cases hb
    have hak : a ∈ keysOf g := mem_keys_of_adjKeys_ne_nil g a hane
    have ha2 : a ∈ ns := hperm.mem_iff.mp hak
    obtain ⟨ia, hia, hvia⟩ := List.mem_iff_getElem.mp ha2
    have hFa : F ia = a := by
      show ns.getD ia "-1" = a
      rw [List.getD_eq_getElem ns _ hia, hvia]
    have hbmem : b ∈ pathNbrs ns ia := by
      apply (hadj ia hia).mem_iff.mp
      rw [show ns.getD ia "-1" = F ia from rfl, hFa]
      exact hb
    rw [hms_zip, List.countP_map]
    rw [pathNbrs] at hbmem
    rcases List.mem_append.mp hbmem with hb1 | hb1
    · by_cases hia0 : ia = 0
      · rw [if_pos hia0] at hb1
        cases hb1
      · rw [if_neg hia0] at hb1
        have hbF : b = F (ia - 1) := List.mem_singleton.mp hb1
        apply countP_eq_one_unique (List.nodup_range _) (ia - 1)
          (by rw [List.mem_range]; omega)
        intro t ht
        rw [List.mem_range] at ht
        constructor
        · intro hqt
          simp only [Function.comp, Bool.or_eq_true, Bool.and_eq_true,
            beq_iff_eq] at hqt
          rcases hqt with ⟨h1, h2⟩ | ⟨h1, h2⟩
          · have e1 : t = ia := hFinj _ _ (by omega) (by omega) (h1.trans hFa.symm)
            have e2 : t + 1 = ia - 1 :=
              hFinj _ _ (by omega) (by omega) (h2.trans hbF)
            omega
          · exact hFinj _ _ (by omega) (by omega) (h1.trans hbF)
        · intro ht0
          subst ht0
          simp only [Function.comp, Bool.or_eq_true, Bool.and_eq_true, beq_iff_eq]
          right
          exact ⟨hbF.symm, by rw [show ia - 1 + 1 = ia from by omega, hFa]⟩
    · by_cases hia1 : ia + 1 < L
      · rw [if_pos hia1] at hb1
        have hbF : b = F (ia + 1) := List.mem_singleton.mp hb1
        apply countP_eq_one_unique (List.nodup_range _) ia
          (by rw [List.mem_range]; omega)
        intro t ht
        rw [List.mem_range] at ht
        constructor
        · intro hqt
          simp only [Function.comp, Bool.or_eq_true, Bool.and_eq_true,
            beq_iff_eq] at hqt
          rcases hqt with ⟨h1, h2⟩ | ⟨h1, h2⟩
          · exact hFinj _ _ (by omega) (by omega) (h1.trans hFa.symm)
          · have e1 : t = ia + 1 := hFinj _ _ (by omega) (by omega) (h1.trans hbF)
            have e2 : t + 1 = ia := hFinj _ _ (by omega) (by omega) (h2.trans hFa.symm)
            omega
        · intro ht0
          subst ht0
          simp only [Function.comp, Bool.or_eq_true, Bool.and_eq_true, beq_iff_eq]
          left
          exact ⟨hFa, hbF.symm⟩
      · rw [if_neg hia1] at hb1
        cases hb1
  · right
    refine ⟨F 0, F k, ?_, ?_, ?_, ?_⟩
    · intro he
      have := hFinj _ _ (by omega) (by omega) he
      omega
    · exact range_map_head F L (by omega)
    · rw [range_map_getLast F L (by omega)]
    · exact hbins.2.1

/-! The cycle-graph instantiation of the walk. -/

theorem sum_map_const_nat {α : Type} (l : List α) (c : Nat) :
    (l.map (fun _ => c)).sum = c * l.length := by
  induction l with
  | nil => simp
  | cons a t ih =>
    simp [ih]
    ring

theorem zmod_natCast_val {n : Nat} [NeZero n] (z : ZMod n) :
    ((z.val : Nat) : ZMod n) = z := by
  rw [ZMod.natCast_val, ZMod.cast_id]

theorem zmod_natCast_inj {n : Nat} [NeZero n] {a b : Nat} (ha : a < n) (hb : b < n)
    (h : (a : ZMod n) = (b : ZMod n)) : a = b := by
  have h2 := congrArg ZMod.val h
  rwa [ZMod.val_natCast, ZMod.val_natCast, Nat.mod_eq_of_lt ha,
    Nat.mod_eq_of_lt hb] at h2

theorem zmod_natCast_ne_zero {n : Nat} [NeZero n] {a : Nat} (ha : 0 < a)
    (h2 : a < n) : ((a : Nat) : ZMod n) ≠ 0 := by
  intro h
  have h3 := (ZMod.natCast_zmod_eq_zero_iff_dvd a n).mp h
  exact absurd (Nat.le_of_dvd ha h3) (by omega)

theorem countP_eq_one_of_exu {α : Type} {l : List α} (hnd : l.Nodup)
    {q : α → Bool} (t0 : α) (ht0 : t0 ∈ l) (hq0 : q t0 = true)
    (huniq : ∀ x ∈ l, ∀ y ∈ l, q x = true → q y = true → x = y) :
    l.countP q = 1 :=
  countP_eq_one_unique hnd t0 ht0 (fun x hx =>
    ⟨fun hqx => huniq x hx t0 ht0 hqx hq0, fun he => he ▸ hq0⟩)

/-- Every entry of a cycle graph has adjacency size 2. -/
theorem cycle_entry_len (g : RouteGraph) (ns : List String)
    (hp : IsCycleGraph g ns) : ∀ e ∈ g, e.2.length = 2 := by
  obtain ⟨hnodup, hL, hsent, hperm, hadj⟩ := hp
  have hndk : (keysOf g).Nodup := hperm.nodup_iff.mpr hnodup
  intro e he
  have hk : e.1 ∈ keysOf g := List.mem_map_of_mem Prod.fst he
  have h2 : e.1 ∈ ns := hperm.mem_iff.mp hk
  obtain ⟨i, hi, hvi⟩ := List.mem_iff_getElem.mp h2
  have hvd : e.1 = ns.getD i "-1" := by
    rw [List.getD_eq_getElem ns _ hi, hvi]
  have h3 := (hadj i hi).length_eq
  rw [← hvd] at h3
  rw [adjKeys, adjOf_entry g hndk e he, List.length_map] at h3
  rw [h3]
  rfl

/-- Degree bins of a cycle graph: everything has degree 2, so both the
degree-3+ and the degree-1 bins are empty and the graph is routable. -/
theorem cycle_bins (g : RouteGraph) (ns : List String) (hp : IsCycleGraph g ns) :
    degBin g 3 = [] ∧ degBin g 1 = [] ∧ isRoutable g = true := by
  have hlen2 := cycle_entry_len g ns hp
  have hb : ∀ d, d ≠ 2 → degBin g d = [] := by
    intro d hd
    rw [degBin, List.filter_eq_nil_iff.mpr ?_]
    · rfl
    · intro e he
      rw [hlen2 e he]
      simp only [beq_iff_eq]
      intro h2
      exact hd (h2.symm.trans (by decide))
  refine ⟨hb 3 (by omega), hb 1 (by omega), ?_⟩
  simp [isRoutable, hb 3 (by omega), hb 1 (by omega)]

theorem cycle_totalAdj (g : RouteGraph) (ns : List String)
    (hp : IsCycleGraph g ns) : totalAdj g = 2 * g.length := by
  have hlen2 := cycle_entry_len g ns hp
  rw [totalAdj, List.map_congr_left
    (fun e he => (hlen2 e he).trans (rfl : (2 : Nat) = 2)), sum_map_const_nat]

/-- The walk on a cycle graph. -/
theorem cycle_core (g : RouteGraph) (ns : List String) (hp : IsCycleGraph g ns) :
    ∃ out ms, orderedChildIdsG g = .ok out ∧ WalkSpec g out ms := by
  have hbins := cycle_bins g ns hp
  have hlen2 := cycle_entry_len g ns hp
  have htotg := cycle_totalAdj g ns hp
  obtain ⟨hnodup, hL, hsent, hperm, hadj⟩ := hp
  have hndk : (keysOf g).Nodup := hperm.nodup_iff.mpr hnodup
  set L := ns.length with hLdef
  haveI : NeZero L := ⟨by omega⟩
  set idx : ZMod L → String := fun z => ns.getD z.val "-1" with hidxdef
  have hidxmem : ∀ z : ZMod L, idx z ∈ ns := fun z => getD_mem (ZMod.val_lt z)
  have hidxne : ∀ z, idx z ≠ "-1" := fun z he => hsent (he ▸ hidxmem z)
  have hidxinj : ∀ z w, idx z = idx w → z = w := by
    intro z w he
    have h2 := nodup_getD_inj hnodup (ZMod.val_lt z) (ZMod.val_lt w) he
    rw [← zmod_natCast_val z, ← zmod_natCast_val w, h2]
  have hadjz : ∀ z : ZMod L, (adjKeys g (idx z)).Perm [idx (z - 1), idx (z + 1)] := by
    intro z
    have hv := ZMod.val_lt z
    have h2 := hadj z.val hv
    rw [cycNbrs] at h2
    have hminus : (z - 1).val = (z.val + L - 1) % L := by
      have hc : ((z.val + L - 1 : Nat) : ZMod L) = z - 1 := by
        rw [Nat.cast_sub (by omega : 1 ≤ z.val + L), Nat.cast_add,
          ZMod.natCast_self, zmod_natCast_val]
        push_cast
        ring
      rw [← hc, ZMod.val_natCast]
    have hplus : (z + 1).val = (z.val + 1) % L := by
      have hc : ((z.val + 1 : Nat) : ZMod L) = z + 1 := by
        push_cast
        rw [zmod_natCast_val]
      rw [← hc, ZMod.val_natCast]
    show (adjKeys g (ns.getD z.val "-1")).Perm
      [ns.getD (z - 1).val "-1", ns.getD (z + 1).val "-1"]
    rw [hminus, hplus]
    exact h2
  have h2ne : (2 : ZMod L) ≠ 0 := by
    have h3 : (((2 : Nat) : Nat) : ZMod L) ≠ 0 := zmod_natCast_ne_zero (by omega) (by omega)
    simpa using h3
  have hpm : ∀ z : ZMod L, idx (z - 1) ≠ idx (z + 1) := by
    intro z he
    have h3 := hidxinj _ _ he
    have h4 : (2 : ZMod L) = 0 := by linear_combination -h3
    exact h2ne h4
  have hglen : g.length = L := by
    have h1 := hperm.length_eq
    simpa [keysOf] using h1
  have htot : totalAdj g = 2 * L := by rw [htotg, hglen]
  obtain ⟨⟨n0, adj0⟩, grest, hg⟩ : ∃ e0 grest, g = e0 :: grest := by
    cases g with
    | nil => simp at hglen; omega
    | cons e0 grest => exact ⟨e0, grest, rfl⟩
  subst hg
  have hn0k : n0 ∈ keysOf ((n0, adj0) :: grest) := by simp [keysOf]
  have hn0 : n0 ∈ ns := hperm.mem_iff.mp hn0k
  obtain ⟨j, hj, hvj⟩ := List.mem_iff_getElem.mp hn0
  have hidxj : idx ((j : ZMod L)) = n0 := by
    show ns.getD ((j : ZMod L)).val "-1" = n0
    rw [show ((j : ZMod L)).val = j from by
      rw [ZMod.val_natCast, Nat.mod_eq_of_lt hj]]
    rw [List.getD_eq_getElem ns _ hj, hvj]
  have hadj0len : adj0.length = 2 := by
    have h2 := hlen2 (n0, adj0) (List.mem_cons_self _ _)
    simpa using h2
  obtain ⟨nb, r0, adjrest, hadj0eq⟩ : ∃ nb r0 adjrest, adj0 = (nb, r0) :: adjrest := by
    cases adj0 with
    | nil => simp at hadj0len
    | cons p rest =>
      exact ⟨p.1, p.2, rest, by rw [show (p.1, p.2) = p from rfl]⟩
  subst hadj0eq
  have hnbmem : nb ∈ adjKeys ((n0, (nb, r0) :: adjrest) :: grest) n0 := by
    simp [adjKeys, adjOf, jsGet]
  have hnbcase : nb ∈ [idx ((j : ZMod L) - 1), idx ((j : ZMod L) + 1)] := by
    apply (hadjz ((j : ZMod L))).mem_iff.mp
    rw [hidxj]
    exact hnbmem
  obtain ⟨dd, hdd, hf1⟩ : ∃ dd : ZMod L, (dd = 1 ∨ dd = -1) ∧
      idx ((j : ZMod L) + dd) = nb := by
    rcases List.mem_cons.mp hnbcase with h | h
    · refine ⟨-1, Or.inr rfl, ?_⟩
      rw [show (j : ZMod L) + -1 = (j : ZMod L) - 1 from by ring]
      exact h.symm
    · have h2 : nb = idx ((j : ZMod L) + 1) := by simpa using h
      exact ⟨1, Or.inl rfl, h2.symm⟩
  have hdd2 : dd * dd = 1 := by
    rcases hdd with h | h <;> rw [h] <;> ring
  have hddcancel : ∀ x y : ZMod L, dd * x = dd * y → x = y := by
    intro x y h
    calc x = dd * dd * x := by rw [hdd2, one_mul]
    _ = dd * dd * y := by rw [mul_assoc, h, mul_assoc]
    _ = y := by rw [hdd2, one_mul]
  set f : Nat → String := fun t => idx ((j : ZMod L) + dd * t) with hfdef
  have hf0 : f 0 = n0 := by
    show idx ((j : ZMod L) + dd * ((0 : Nat) : ZMod L)) = n0
    rw [show ((j : ZMod L) + dd * ((0 : Nat) : ZMod L)) = (j : ZMod L) from by
      push_cast
      ring]
    exact hidxj
  have hfone : f 1 = nb := by
    show idx ((j : ZMod L) + dd * ((1 : Nat) : ZMod L)) = nb
    rw [show ((j : ZMod L) + dd * ((1 : Nat) : ZMod L)) = (j : ZMod L) + dd from by
      push_cast
      ring]
    exact hf1
  have hfne : ∀ t, f t ≠ "-1" := fun t => hidxne _
  have hinj2 : ∀ t, 1 ≤ t → t < L → f t ≠ f 0 := by
    intro t h1 h2 he
    have h3 := hidxinj _ _ he
    have h4 : dd * ((t : Nat) : ZMod L) = dd * ((0 : Nat) : ZMod L) := by
      linear_combination h3
    have h5 := hddcancel _ _ h4
    have h6 : ((t : Nat) : ZMod L) = 0 := by
      rw [h5]
      push_cast
      ring
    exact zmod_natCast_ne_zero h1 h2 h6
  have hMf : f L = f 0 := by
    show idx _ = idx _
    rw [show ((j : ZMod L) + dd * ((L : Nat) : ZMod L))
        = ((j : ZMod L) + dd * ((0 : Nat) : ZMod L)) from by
      rw [ZMod.natCast_self]
      push_cast
      ring]
  have hgetn : ∀ z : ZMod L,
      getNextNode ((n0, (nb, r0) :: adjrest) :: grest) (idx z) (idx (z - dd))
        = some (idx (z + dd)) := by
    intro z
    rcases hdd with h | h
    · rw [h]
      exact getNext_pair _ (idx z) (idx (z - 1)) (idx (z + 1)) (hadjz z) (hpm z)
    · rw [h]
      have hswap : (adjKeys ((n0, (nb, r0) :: adjrest) :: grest) (idx z)).Perm
          [idx (z + 1), idx (z - 1)] :=
        (hadjz z).trans (List.Perm.swap _ _ [])
      have h2 := getNext_pair _ (idx z) (idx (z + 1)) (idx (z - 1)) hswap
        (Ne.symm (hpm z))
      rw [show z - -1 = z + 1 from by ring, show z + -1 = z - 1 from by ring]
      exact h2
  have hfstep : ∀ t, 1 ≤ t → t < L →
      getNextNode ((n0, (nb, r0) :: adjrest) :: grest) (f t) (f (t - 1))
        = some (f (t + 1)) := by
    intro t h1 h2
    have hm1 : f (t - 1) = idx (((j : ZMod L) + dd * t) - dd) := by
      show idx _ = idx _
      congr 1
      rw [Nat.cast_sub h1]
      push_cast
      ring
    have hp1 : f (t + 1) = idx (((j : ZMod L) + dd * t) + dd) := by
      show idx _ = idx _
      congr 1
      push_cast
      ring
    rw [hm1, hp1]
    exact hgetn ((j : ZMod L) + dd * t)
  have hfuel : L < fuelOf ((n0, (nb, r0) :: adjrest) :: grest) := by
    rw [fuelOf, htot]
    omega
  have hwalk := walk_cycle ((n0, (nb, r0) :: adjrest) :: grest) f L (by omega)
    hfstep hfne hinj2 hMf (fuelOf ((n0, (nb, r0) :: adjrest) :: grest)) hfuel
  have hlen1 : ¬((((n0, (nb, r0) :: adjrest) :: grest).length == 1) = true) := by
    simp [hglen]
    omega
  have hfind : ((n0, (nb, r0) :: adjrest) :: grest).find?
      (fun x => x.2.length == 1) = none := by
    rw [List.find?_eq_none]
    intro x hx
    simp [hlen2 x hx]
  have hout : orderedChildIdsG ((n0, (nb, r0) :: adjrest) :: grest)
      = .ok ((List.range L).map (fun u =>
          (lookup2 ((n0, (nb, r0) :: adjrest) :: grest) (f u) (f (u + 1))).getD
            "undefined")) := by
    rw [orderedChildIdsG, if_pos hbins.2.2, if_neg hlen1, hfind]
    show Except.ok (walkAux ((n0, (nb, r0) :: adjrest) :: grest)
      (fuelOf ((n0, (nb, r0) :: adjrest) :: grest)) "-1" n0 (some nb) n0 []) = _
    rw [hf0, hfone] at hwalk
    rw [hwalk]
  have hmem2 : ∀ t : Nat, f (t + 1) ∈ adjKeys ((n0, (nb, r0) :: adjrest) :: grest) (f t) := by
    intro t
    have hp1 : f (t + 1) = idx (((j : ZMod L) + dd * t) + dd) := by
      show idx _ = idx _
      congr 1
      push_cast
      ring
    show f (t + 1) ∈ adjKeys _ (idx ((j : ZMod L) + dd * t))
    apply (hadjz ((j : ZMod L) + dd * t)).mem_iff.mpr
    rw [hp1]
    rcases hdd with h | h
    · rw [h]
      simp
    · rw [h, show ∀ w : ZMod L, w + -1 = w - 1 from fun w => by ring]
      simp
  have hms_zip : ((List.range (L + 1)).map f).zip (((List.range (L + 1)).map f).tail)
      = (List.range L).map (fun t => (f t, f (t + 1))) := zip_tail_range_map f L
  refine ⟨_, (List.range (L + 1)).map f, hout, ?_, ?_, ?_, ?_⟩
  · rw [chainRefs, hms_zip, List.map_map, List.map_map]
    apply List.map_congr_left
    intro t ht
    obtain ⟨r, hr⟩ := lookup2_isSome_of_mem _ (f t) (f (t + 1)) (hmem2 t)
    simp [Function.comp, hr]
  · rw [List.length_map, List.length_range, edgeCount, htot]
    omega
  · intro a b hb
    have hane : adjKeys ((n0, (nb, r0) :: adjrest) :: grest) a ≠ [] := by
      intro hnil
      rw [hnil] at hb
      cases hb
    have hak : a ∈ keysOf ((n0, (nb, r0) :: adjrest) :: grest) :=
      mem_keys_of_adjKeys_ne_nil _ a hane
    have ha2 : a ∈ ns := hperm.mem_iff.mp hak
    obtain ⟨ia, hia, hvia⟩ := List.mem_iff_getElem.mp ha2
    have hFa : idx ((ia : ZMod L)) = a := by
      show ns.getD ((ia : ZMod L)).val "-1" = a
      rw [show ((ia : ZMod L)).val = ia from by
        rw [ZMod.val_natCast, Nat.mod_eq_of_lt hia]]
      rw [List.getD_eq_getElem ns _ hia, hvia]
    have hbmem : b ∈ [idx ((ia : ZMod L) - 1), idx ((ia : ZMod L) + 1)] := by
      apply (hadjz ((ia : ZMod L))).mem_iff.mp
      rw [hFa]
      exact hb
    obtain ⟨ee, hee, hbe⟩ : ∃ ee : ZMod L, (ee = 1 ∨ ee = -1) ∧
        b = idx ((ia : ZMod L) + ee) := by
      rcases List.mem_cons.mp hbmem with h | h
      · refine ⟨-1, Or.inr rfl, ?_⟩
        rw [show (ia : ZMod L) + -1 = (ia : ZMod L) - 1 from by ring]
        exact h
      · have h2 : b = idx ((ia : ZMod L) + 1) := by simpa using h
        exact ⟨1, Or.inl rfl, h2⟩
    rw [hms_zip, List.countP_map]
    have hane2 : a ≠ b := by
      intro he
      have h3 := hidxinj _ _ (hFa.trans (he.trans hbe))
      have h4 : ee = 0 := by linear_combination h3.symm
      rcases hee with h | h <;> rw [h] at h4
      · exact h2ne (by linear_combination 2 * h4)
      · exact h2ne (by linear_combination -2 * h4)
    have huniq : ∀ x ∈ List.range L, ∀ y ∈ List.range L,
        ((fun p => (p.1 == a && p.2 == b) || (p.1 == b && p.2 == a)) ∘
          (fun t => (f t, f (t + 1)))) x = true →
        ((fun p => (p.1 == a && p.2 == b) || (p.1 == b && p.2 == a)) ∘
          (fun t => (f t, f (t + 1)))) y = true → x = y := by
      intro x hx y hy hqx hqy
      rw [List.mem_range] at hx hy
      simp only [Function.comp, Bool.or_eq_true, Bool.and_eq_true, beq_iff_eq] at hqx hqy
      have hcast : ∀ u : Nat, ((u + 1 : Nat) : ZMod L) = ((u : Nat) : ZMod L) + 1 := by
        intro u
        push_cast
        ring
      have heq : ∀ u w : Nat, f u = f w → ((u : Nat) : ZMod L) = ((w : Nat) : ZMod L) := by
        intro u w he
        have h3 := hidxinj _ _ he
        exact hddcancel _ _ (by linear_combination h3)
      rcases hqx with ⟨hx1, hx2⟩ | ⟨hx1, hx2⟩ <;> rcases hqy with ⟨hy1, hy2⟩ | ⟨hy1, hy2⟩
      · exact zmod_natCast_inj hx hy (heq x y (hx1.trans hy1.symm))
      · have e1 := heq x (y + 1) (hx1.trans hy2.symm)
        have e2 := heq (x + 1) y (hx2.trans hy1.symm)
        rw [hcast] at e1 e2
        have : (2 : ZMod L) = 0 := by linear_combination e2 - e1
        exact absurd this h2ne
      · have e1 := heq x (y + 1) (hx1.trans hy2.symm)
        have e2 := heq (x + 1) y (hx2.trans hy1.symm)
        rw [hcast] at e1 e2
        have : (2 : ZMod L) = 0 := by linear_combination e2 - e1
        exact absurd this h2ne
      · exact zmod_natCast_inj hx hy (heq x y (hx1.trans hy1.symm))
    have hfeq : ∀ z : ZMod L, f z.val = idx ((j : ZMod L) + dd * z) := by
      intro z
      show idx _ = idx _
      rw [zmod_natCast_val]
    rcases hdd with hd | hd <;> rcases hee with he | he
    · -- dd = 1, ee = 1 : first disjunct at t0 = (a-index minus j)
      apply countP_eq_one_of_exu (List.nodup_range _) ((ia : ZMod L) - (j : ZMod L)).val
        (by rw [List.mem_range]; exact ZMod.val_lt _) ?_ huniq
      simp only [Function.comp, Bool.or_eq_true, Bool.and_eq_true, beq_iff_eq]
      left
      constructor
      · rw [hfeq, hd, ← hFa]
        congr 1
        ring
      · rw [hbe, show (((ia : ZMod L) - (j : ZMod L)).val + 1 : Nat)
            = ((ia : ZMod L) - (j : ZMod L)).val + 1 from rfl]
        show idx _ = idx _
        congr 1
        push_cast [zmod_natCast_val]
        rw [hd, he]
        ring
    · -- dd = 1, ee = -1 : second disjunct at t0 = (b-index minus j)
      apply countP_eq_one_of_exu (List.nodup_range _)
        ((ia : ZMod L) - 1 - (j : ZMod L)).val
        (by rw [List.mem_range]; exact ZMod.val_lt _) ?_ huniq
      simp only [Function.comp, Bool.or_eq_true, Bool.and_eq_true, beq_iff_eq]
      right
      constructor
      · rw [hfeq, hd, hbe, he]
        congr 1
        ring
      · rw [← hFa]
        show idx _ = idx _
        congr 1
        push_cast [zmod_natCast_val]
        rw [hd]
        ring
    · -- dd = -1, ee = 1 : second disjunct
      apply countP_eq_one_of_exu (List.nodup_range _)
        ((j : ZMod L) - (ia : ZMod L) - 1).val
        (by rw [List.mem_range]; exact ZMod.val_lt _) ?_ huniq
      simp only [Function.comp, Bool.or_eq_true, Bool.and_eq_true, beq_iff_eq]
      right
      constructor
      · rw [hfeq, hd, hbe, he]
        congr 1
        ring
      · rw [← hFa]
        show idx _ = idx _
        congr 1
        push_cast [zmod_natCast_val]
        rw [hd]
        ring
    · -- dd = -1, ee = -1 : first disjunct
      apply countP_eq_one_of_exu (List.nodup_range _)
        ((j : ZMod L) - (ia : ZMod L)).val
        (by rw [List.mem_range]; exact ZMod.val_lt _) ?_ huniq
      simp only [Function.comp, Bool.or_eq_true, Bool.and_eq_true, beq_iff_eq]
      left
      constructor
      · rw [hfeq, hd, ← hFa]
        congr 1
        ring
      · rw [hbe, he]
        show idx _ = idx _
        congr 1
        push_cast [zmod_natCast_val]
        rw [hd]
        ring
  · left
    refine ⟨hbins.2.1, ?_⟩
    rw [range_map_head f (L + 1) (by omega), range_map_getLast f (L + 1) (by omega)]
    rw [show L + 1 - 1 = L from by omega, hMf]

/-- C2 (amended): for every route graph that forms a single simple path
(at least one edge) or a single simple cycle (at least three nodes), the
graph is routable and `orderedChildIds` succeeds with a list of signed
segment references satisfying the full walk contract `WalkSpec`: the output
is the signed reference of each consecutively chained edge, its length is
the edge count, every edge of the graph is traversed exactly once, and the
node chain either closes at its start (round trip, no degree-1 node) or
runs between the two degree-1 ends (one-way).  The claim's original
quantification over every *routable* graph fails: routable graphs with
several components exist, and there the walk covers only one component. -/
theorem c2_order_walk (g : RouteGraph)
    (h : (∃ ns, IsPathGraph g ns) ∨ (∃ ns, IsCycleGraph g ns)) :
    isRoutable g = true ∧
    ∃ out ms, orderedChildIdsG g = .ok out ∧ WalkSpec g out ms := by
  rcases h with ⟨ns, hp⟩ | ⟨ns, hp⟩
  · refine ⟨(path_bins g ns hp).2.2, ?_⟩
    have hbins := path_bins g ns hp
    have hndk : (keysOf g).Nodup := hp.2.2.2.1.nodup_iff.mpr hp.1
    have hL := hp.2.1
    obtain ⟨e, hfind⟩ : ∃ e, g.find? (fun x => x.2.length == 1) = some e := by
      cases hfd : g.find? (fun x => x.2.length == 1) with
      | some e => exact ⟨e, rfl⟩
      | none =>
        exfalso
        rw [List.find?_eq_none] at hfd
        have h1 : ns.getD 0 "-1" ∈ degBin g 1 := hbins.2.1.mem_iff.mpr (by simp)
        rw [degBin] at h1
        obtain ⟨e, he, hke⟩ := List.mem_map.mp h1
        have he2 := List.mem_filter.mp he
        have hlen : e.2.length = 1 := by
          have h3 := he2.2
          simp only [beq_iff_eq] at h3
          exact (min3_eq_iff e.2.length 1 (by omega)).mp h3
        exact absurd (show (e.2.length == 1) = true by simp [hlen]) (hfd e he2.1)
    have hfp : e.2.length = 1 := by simpa using List.find?_some hfind
    have hfmem : e ∈ g := List.mem_of_find?_eq_some hfind
    have hkmem : e.1 ∈ ns := hp.2.2.2.1.mem_iff.mp (List.mem_map_of_mem Prod.fst hfmem)
    obtain ⟨i, hi, hvi⟩ := List.mem_iff_getElem.mp hkmem
    have hvd : e.1 = ns.getD i "-1" := by
      rw [List.getD_eq_getElem ns _ hi, hvi]
    have hadjlen : (pathNbrs ns i).length = 1 := by
      have h2 := (hp.2.2.2.2 i hi).length_eq
      rw [← hvd, adjKeys, adjOf_entry g hndk e hfmem, List.length_map, hfp] at h2
      exact h2.symm
    have hcases : i = 0 ∨ i = ns.length - 1 := by
      rw [pathNbrs] at hadjlen
      by_cases h0 : i = 0
      · exact Or.inl h0
      · right
        rw [if_neg h0] at hadjlen
        by_cases h1 : i + 1 < ns.length
        · rw [if_pos h1] at hadjlen
          simp at hadjlen
        · omega
    rcases hcases with h0 | hlast
    · subst h0
      obtain ⟨out, hout, hws⟩ := path_core g ns hp e hfind hvd
      exact ⟨out, _, hout, hws⟩
    · have hp2 := isPathGraph_reverse g ns hp
      have hv2 : e.1 = ns.reverse.getD 0 "-1" := by
        rw [getD_reverse (show 0 < ns.length from by omega), hvd, hlast, Nat.sub_zero]
      obtain ⟨out, hout, hws⟩ := path_core g ns.reverse hp2 e hfind hv2
      exact ⟨out, _, hout, hws⟩
  · refine ⟨(cycle_bins g ns hp).2.2, ?_⟩
    obtain ⟨out, ms, hout, hws⟩ := cycle_core g ns hp
    exact ⟨out, ms, hout, hws⟩

/-- Witness for C2: the concrete path graph A - B - C satisfies the
amended statement. -/
theorem c2_witness :
    isRoutable gPath3 = true ∧
    ∃ out ms, orderedChildIdsG gPath3 = .ok out ∧ WalkSpec gPath3 out ms :=
  c2_order_walk gPath3 (Or.inl ⟨["A", "B", "C"], by unfold IsPathGraph; decide⟩)

/-- Counterexample to C2 as stated: the route of two disjoint triangles is
routable (every node has degree 2), yet `orderedChildIds` returns only the
three references of the first triangle while the graph has six edges, so
not every edge is visited. -/
theorem c2_counterexample :
    isRoutableRoute msTwoTri = true ∧
    orderedChildIdsRoute msTwoTri = .ok ["1", "2", "3"] ∧
    (routeGraphE msTwoTri).map edgeCount = .ok 6 := by
  refine ⟨by decide, by decide, by decide⟩

/-! Statistics: shape of a successful `statistics` record. -/

theorem statsRoute_ok_surface (ms : List Member) (r : Stats)
    (h : statsRoute ms = .ok r) :
    r.surfacePct = jsRound ((((children ms).filter
        (fun m => m.role != "alternative")).map feature).foldl statStep
        ⟨0, 0, 0, [], 0, 0, [], 0⟩).surfacePct * 100 ∧
    r.surfaceWays = ((((children ms).filter
        (fun m => m.role != "alternative")).map feature).foldl statStep
        ⟨0, 0, 0, [], 0, 0, [], 0⟩).surfaceWays := by
  simp only [statsRoute] at h
  split at h
  · exact absurd h (by simp)
  · rw [Except.ok.injEq] at h
    subst h
    exact ⟨rfl, rfl⟩

theorem foldl_delta_sum (l : List (List Rat × List Rat)) (a b : Rat) :
    l.foldl (fun p q => (p.1 + (delta3 q.1 q.2).1, p.2 + (delta3 q.1 q.2).2)) (a, b)
      = (a + (l.map (fun q => (delta3 q.1 q.2).1)).sum,
         b + (l.map (fun q => (delta3 q.1 q.2).2)).sum) := by
  induction l generalizing a b with
  | nil => simp
  | cons x t ih =>
    rw [List.foldl_cons, ih, List.map_cons, List.sum_cons, List.map_cons, List.sum_cons]
    rw [Prod.mk.injEq]
    exact ⟨by ring, by ring⟩

/-- The ascent/descent fold equals the pair of sums of the positive and
negative elevation-delta magnitudes over consecutive coordinate pairs. -/
theorem ascDesc_eq_sum (cs : List (List Rat)) :
    ascDesc cs = (((cs.zip cs.tail).map (fun q => (delta3 q.1 q.2).1)).sum,
      ((cs.zip cs.tail).map (fun q => (delta3 q.1 q.2).2)).sum) := by
  rw [ascDesc, foldl_delta_sum]
  rw [Prod.mk.injEq]
  exact ⟨by ring, by ring⟩

theorem rat_floor_eq_intFloor (q : Rat) : q.floor = ⌊q⌋ := rfl

/-- A successful routability check together with a nonempty assembled line
guarantees that the whole `statistics` computation succeeds. -/
theorem statsRoute_ok_of (ms : List Member) (c0 : List Rat) (rest : List (List Rat))
    (hro : isRoutableRoute ms = true) (hlc : lineCoordsE ms = .ok (c0 :: rest)) :
    ∃ r, statsRoute ms = .ok r := by
  cases hs : statsRoute ms with
  | ok r => exact ⟨r, rfl⟩
  | error e =>
    exfalso
    by_cases h3 : c0.length = 3 <;> simp [statsRoute, hro, hlc, h3] at hs

/-- C7 (amended): when the segment WITHOUT a surface tag is processed first
and the tagged one second, the statistics record shows surfacePct = 50 and
surfaceWays = [untagged id].  The claim's "in either processing order" is
wrong: the increment `+= 1/numSegments` uses the running segment count, so a
tagged segment processed first contributes 1/1 and the final value is 100. -/
theorem c7_surface_order (m1 m2 : Member)
    (h1t : m1.type = "way") (h1e : m1.hasElement = true)
    (h1r : m1.role ≠ "alternative")
    (h2t : m2.type = "way") (h2e : m2.hasElement = true)
    (h2r : m2.role ≠ "alternative")
    (hs1 : m1.props.surface = false) (hs2 : m2.props.surface = true) :
    ∀ r, statsRoute [m1, m2] = .ok r →
      r.surfacePct = 50 ∧ r.surfaceWays = [m1.props.atId] := by
  intro r hr
  obtain ⟨hp, hw⟩ := statsRoute_ok_surface [m1, m2] r hr
  have hch : (children [m1, m2]).filter (fun m => m.role != "alternative")
      = [m1, m2] := by
    rw [children]
    simp [h1t, h1e, h2t, h2e, bne_iff_ne.mpr h1r, bne_iff_ne.mpr h2r]
  rw [hch] at hp hw
  have hsp : (([m1, m2].map feature).foldl statStep
      ⟨0, 0, 0, [], 0, 0, [], 0⟩).surfacePct = 1 / 2 := by
    norm_num [statStep, feature, hs1, hs2]
  have hsw : (([m1, m2].map feature).foldl statStep
      ⟨0, 0, 0, [], 0, 0, [], 0⟩).surfaceWays = [m1.props.atId] := by
    simp [statStep, feature, hs1, hs2]
  rw [hsp] at hp
  rw [hsw] at hw
  refine ⟨?_, hw⟩
  rw [hp]
  norm_num [jsRound, rat_floor_eq_intFloor]

/-- Witness for C7: a concrete untagged-then-tagged two-segment route whose
statistics record indeed shows 50 percent coverage. -/
theorem c7_witness :
    ∃ r, statsRoute [mkSegC "1" "A" "B" false [[0, 0]],
        mkSegC "2" "B" "C" true [[1, 1]]] = .ok r ∧
      r.surfacePct = 50 ∧
      r.surfaceWays = [(mkSegC "1" "A" "B" false [[0, 0]]).props.atId] := by
  obtain ⟨r, hr⟩ := statsRoute_ok_of [mkSegC "1" "A" "B" false [[0, 0]],
    mkSegC "2" "B" "C" true [[1, 1]]] [0, 0] [] (by decide) (by decide)
  have h2 := c7_surface_order (mkSegC "1" "A" "B" false [[0, 0]])
    (mkSegC "2" "B" "C" true [[1, 1]]) rfl rfl (by decide) rfl rfl (by decide)
    rfl rfl r hr
  exact ⟨r, hr, h2.1, h2.2⟩

/-- Counterexample to C7 as stated: processing the tagged segment first
yields surfacePct = 100, not 50, for the same unordered pair of segments. -/
theorem c7_counterexample :
    ∃ r, statsRoute [mkSegC "1" "A" "B" true [[0, 0]],
        mkSegC "2" "B" "C" false [[1, 1]]] = .ok r ∧
      r.surfacePct = 100 ∧ r.surfaceWays = ["way/2"] := by
  obtain ⟨r, hr⟩ := statsRoute_ok_of [mkSegC "1" "A" "B" true [[0, 0]],
    mkSegC "2" "B" "C" false [[1, 1]]] [0, 0] [] (by decide) (by decide)
  obtain ⟨hp, hw⟩ := statsRoute_ok_surface [mkSegC "1" "A" "B" true [[0, 0]],
    mkSegC "2" "B" "C" false [[1, 1]]] r hr
  refine ⟨r, hr, ?_, ?_⟩
  · rw [hp]
    norm_num +decide [children, statStep, feature, mkSegC, List.filter_cons,
      List.filter_nil, jsRound, rat_floor_eq_intFloor]
  · rw [hw]
    norm_num +decide [children, statStep, feature, mkSegC, List.filter_cons,
      List.filter_nil]

/-- C8 (amended): in a successful statistics record, ascent and descent are
real numbers exactly when the route is routable and the assembled line's
first coordinate has a third (elevation) component; then ascent is the
ROUNDED (2 decimal places, as the final `round` pass applies) sum of the
positive elevation deltas and descent the rounded sum of the magnitudes of
the negative deltas.  Otherwise both fields are NaN (`round(undefined)` is
still assigned to them, modelled `none`), not absent. -/
theorem c8_ascent_descent (ms : List Member) (r : Stats)
    (h : statsRoute ms = .ok r) :
    (∀ c0 rest, isRoutableRoute ms = true → lineCoordsE ms = .ok (c0 :: rest) →
      c0.length = 3 →
      r.ascent = some (jsRound (((c0 :: rest).zip rest).map
          (fun q => (delta3 q.1 q.2).1)).sum) ∧
      r.descent = some (jsRound (((c0 :: rest).zip rest).map
          (fun q => (delta3 q.1 q.2).2)).sum)) ∧
    (isRoutableRoute ms = false → r.ascent = none ∧ r.descent = none) ∧
    (∀ c0 rest, isRoutableRoute ms = true → lineCoordsE ms = .ok (c0 :: rest) →
      c0.length ≠ 3 → r.ascent = none ∧ r.descent = none) := by
  refine ⟨?_, ?_, ?_⟩
  · intro c0 rest hro hlc h3
    simp [statsRoute, hro, hlc, h3] at h
    subst h
    refine ⟨?_, ?_⟩ <;> simp [jsRoundOpt, ascDesc_eq_sum]
  · intro hro
    simp [statsRoute, hro] at h
    subst h
    exact ⟨rfl, rfl⟩
  · intro c0 rest hro hlc h3
    simp [statsRoute, hro, hlc, h3] at h
    subst h
    exact ⟨rfl, rfl⟩

/-- Witness for C8: a routable two-segment 3-D route; ascent collects the
+2 elevation gain and descent the 1-unit drop. -/
theorem c8_witness :
    ∃ r, statsRoute [mkSegC "1" "A" "B" false [[0, 0, 10], [1, 1, 12]],
        mkSegC "2" "B" "C" false [[1, 1, 12], [2, 2, 11]]] = .ok r ∧
      r.ascent = some 2 ∧ r.descent = some 1 := by
  obtain ⟨r, hr⟩ := statsRoute_ok_of [mkSegC "1" "A" "B" false [[0, 0, 10], [1, 1, 12]],
    mkSegC "2" "B" "C" false [[1, 1, 12], [2, 2, 11]]] [0, 0, 10] [[1, 1, 12], [2, 2, 11]]
    (by decide) (by decide)
  have h2 := (c8_ascent_descent [mkSegC "1" "A" "B" false [[0, 0, 10], [1, 1, 12]],
      mkSegC "2" "B" "C" false [[1, 1, 12], [2, 2, 11]]] r hr).1
    [0, 0, 10] [[1, 1, 12], [2, 2, 11]] (by decide) (by decide) rfl
  refine ⟨r, hr, ?_, ?_⟩
  · rw [h2.1]
    norm_num [delta3, jsRound, rat_floor_eq_intFloor]
  · rw [h2.2]
    norm_num [delta3, jsRound, rat_floor_eq_intFloor]

/-- Counterexample to C8 as stated: a routable 3-D route with a +0.001
elevation delta.  The code's final 2-decimal rounding stores ascent 0, not
the claimed raw sum 0.001. -/
theorem c8_counterexample :
    ∃ r, statsRoute [mkSegC "1" "A" "B" false [[0, 0, 0], [1, 1, mkRat 1 1000]]]
        = .ok r ∧ r.ascent = some 0 ∧ r.ascent ≠ some (1/1000) := by
  obtain ⟨r, hr⟩ := statsRoute_ok_of [mkSegC "1" "A" "B" false [[0, 0, 0], [1, 1, mkRat 1 1000]]]
    [0, 0, 0] [[1, 1, mkRat 1 1000]] (by decide) (by decide)
  have h2 := (c8_ascent_descent [mkSegC "1" "A" "B" false [[0, 0, 0], [1, 1, mkRat 1 1000]]]
    r hr).1 [0, 0, 0] [[1, 1, mkRat 1 1000]] (by decide) (by decide) rfl
  have ha : r.ascent = some 0 := by
    rw [h2.1]
    norm_num [delta3, jsRound, rat_floor_eq_intFloor, Rat.mkRat_eq_div]
  refine ⟨r, hr, ha, ?_⟩
  rw [ha]
  norm_num

/-- C9: the assembled LineString is the first ordered feature's coordinate
sequence followed by every later feature's coordinates with the leading
join point dropped (`slice(1)`), so shared junction points are not
duplicated. -/
theorem c9_join_dedup (ms : List Member) (f : Feat) (fs : List Feat)
    (h : orderedFeats ms = .ok (f :: fs)) :
    lineCoordsE ms = .ok (f.coords ++ (fs.map (fun f2 => f2.coords.drop 1)).flatten) := by
  rw [lineCoordsE, h]

/-- Witness for C9: joining [[0,0],[1,1]] and [[1,1],[2,2]] yields the
3-point line [[0,0],[1,1],[2,2]], not 4 points. -/
theorem c9_witness :
    lineCoordsE [mkSegC "1" "A" "B" false [[0, 0], [1, 1]],
        mkSegC "2" "B" "C" false [[1, 1], [2, 2]]]
      = .ok [[0, 0], [1, 1], [2, 2]] := by
  have h : orderedFeats [mkSegC "1" "A" "B" false [[0, 0], [1, 1]],
      mkSegC "2" "B" "C" false [[1, 1], [2, 2]]]
      = .ok [⟨[[0, 0], [1, 1]], ⟨false, none, false, "way/1"⟩, 0⟩,
        ⟨[[1, 1], [2, 2]], ⟨false, none, false, "way/2"⟩, 0⟩] := by decide
  exact (c9_join_dedup [mkSegC "1" "A" "B" false [[0, 0], [1, 1]],
    mkSegC "2" "B" "C" false [[1, 1], [2, 2]]] _ _ h).trans (by decide)

end SuperRoute
